import Mathlib

/-!
Verification development for the sysreptor encryption core.

The repository's `src/` tree contains the test suites and the rotation
command (`sysreptor/management/commands/encryptdata.py`), but the modules
they exercise (`sysreptor/utils/crypto.py`, the archive models and the
periodic tasks) are not included.  Those parts are modelled from the
specification (each such definition is marked `Modelled from the spec:` in
its doc comment); `encryptdata.py` is embedded from its source.

Conventions: a byte string is a `List Nat` whose members are below 256
(`IsBytes`); fallible operations return `Except CryptoError` /
`Option`; all recursion on the decode / streaming paths is structural
(fuel-indexed where the measure is a list length), so that concrete
witnesses evaluate by `decide`.
-/

set_option maxRecDepth 8000

/-- A byte string: list of naturals, each expected below 256. -/
abbrev Bytes := List Nat

/-- Every member of the list is a byte value (below 256). -/
def IsBytes (l : Bytes) : Prop := ∀ b ∈ l, b < 256

instance : DecidablePred IsBytes := fun l =>
  inferInstanceAs (Decidable (∀ b ∈ l, b < 256))

/-- Modelled from the spec: the named symmetric key record of the
KeyRegistry (`EncryptionKey` in `sysreptor/utils/crypto.py`, absent from
`src/`): `{id, secret key material, revoked flag}`.  The string id is
embedded as its byte string. -/
structure EncryptionKey where
  id : Bytes
  key : Bytes
  revoked : Bool
deriving DecidableEq, Repr

/-- Modelled from the spec: the envelope's magic prefix (`crypto.MAGIC`).
Its concrete value is not given by the spec; any fixed byte constant
serves.  A value lacking this prefix is treated as plaintext. -/
def MAGIC : Bytes := [198, 53, 144, 222]

/-- Modelled from the spec: the fixed chunk size used by the encrypting
writer (the header records it).  The spec fixes no numeric value; the
model uses a small constant so chunking behaviour is exercised. -/
def CHUNK_SIZE : Nat := 8

/-- Modelled from the spec: the identifier of the AEAD algorithm recorded
in the header, as an opaque byte constant. -/
def ALG : Bytes := [1, 2]

/-- The error taxonomy of the cipher layer (spec section 7). -/
inductive CryptoError where
  | integrityError
  | missingKey
  | revokedKey
  | plaintextNotAllowed
  | malformedHeader
deriving DecidableEq, Repr

deriving instance DecidableEq for Except

/-! ### NUL-free header serialization

The header is serialized as UTF-8 JSON in the source; the model uses a
NUL-free, injective, parseable byte encoding of the same record (the
claims depend on the header being cryptographically bound as associated
data and terminated by the first `0x00` byte, not on JSON syntax).
Each payload byte is split into two base-16 digits shifted into `1..16`;
`17` terminates a component, `19` marks an extra header field. -/

/-- Encode a byte string NUL-free: two digits in `1..16` per byte,
terminated by `17`. -/
def encBS (l : Bytes) : Bytes :=
  l.foldr (fun b acc => (b / 16 + 1) :: (b % 16 + 1) :: acc) [17]

/-- Base-16 digits of `n` (little-endian, each shifted into `1..16`),
fuel-indexed so the definition is structural. -/
def natDigitsF : Nat → Nat → Bytes
  | 0, _ => []
  | fuel + 1, n => if n = 0 then [] else (n % 16 + 1) :: natDigitsF fuel (n / 16)

/-- Encode a natural NUL-free, terminated by `17`. -/
def encNat (n : Nat) : Bytes := natDigitsF n n ++ [17]

/-- Parse a NUL-free natural back; returns the value and the unconsumed
tail. -/
def parseNat : Bytes → Option (Nat × Bytes)
  | [] => none
  | b :: r =>
    if b = 17 then some (0, r)
    else if 1 ≤ b ∧ b ≤ 16 then
      (parseNat r).map (fun p => ((b - 1) + 16 * p.1, p.2))
    else none

/-- Parse a NUL-free byte string back; returns the string and the
unconsumed tail. -/
def parseBS : Bytes → Option (Bytes × Bytes)
  | [] => none
  | [b1] => if b1 = 17 then some ([], []) else none
  | b1 :: b2 :: r2 =>
    if b1 = 17 then some ([], b2 :: r2)
    else if (1 ≤ b1 ∧ b1 ≤ 16) ∧ (1 ≤ b2 ∧ b2 ≤ 16) then
      (parseBS r2).map (fun p => (((b1 - 1) * 16 + (b2 - 1)) :: p.1, p.2))
    else none

theorem parseBS_nulTerm (rest : Bytes) : parseBS (17 :: rest) = some ([], rest) := by
  cases rest with
  | nil => rw [parseBS]; rw [if_pos rfl]
  | cons b r => rw [parseBS]; rw [if_pos rfl]

theorem parseNat_nulTerm (rest : Bytes) : parseNat (17 :: rest) = some (0, rest) := by
  rw [parseNat, if_pos rfl]

theorem parseNat_encNat (n : Nat) (rest : Bytes) :
    parseNat (encNat n ++ rest) = some (n, rest) := by
  unfold encNat
  suffices h : ∀ fuel m, m ≤ fuel →
      parseNat ((natDigitsF fuel m ++ [17]) ++ rest) = some (m, rest) by
    exact h n n le_rfl
  intro fuel
  induction fuel with
  | zero =>
    intro m hm
    interval_cases m
    simp only [natDigitsF, List.nil_append, List.cons_append]
    exact parseNat_nulTerm rest
  | succ fuel ih =>
    intro m hm
    by_cases hm0 : m = 0
    · simp only [hm0, natDigitsF, if_pos rfl, List.nil_append, List.cons_append]
      exact parseNat_nulTerm rest
    · have hlt : m / 16 < m := Nat.div_lt_self (Nat.pos_of_ne_zero hm0) (by omega)
      simp only [natDigitsF, hm0, if_false, List.cons_append]
      rw [parseNat]
      rw [if_neg (by omega), if_pos (by omega : 1 ≤ m % 16 + 1 ∧ m % 16 + 1 ≤ 16)]
      rw [ih (m / 16) (by omega)]
      simp only [Option.map_some']
      have : (m % 16 + 1 - 1) + 16 * (m / 16) = m := by omega
      rw [this]

theorem parseBS_encBS (l : Bytes) (hl : IsBytes l) (rest : Bytes) :
    parseBS (encBS l ++ rest) = some (l, rest) := by
  induction l with
  | nil =>
    simp only [encBS, List.foldr_nil, List.cons_append, List.nil_append]
    exact parseBS_nulTerm rest
  | cons b bs ih =>
    have hb : b < 256 := hl b (by simp)
    have hbs : IsBytes bs := fun x hx => hl x (by simp [hx])
    simp only [encBS, List.foldr_cons, List.cons_append]
    rw [parseBS]
    rw [if_neg (by omega)]
    rw [if_pos (by omega :
      (1 ≤ b / 16 + 1 ∧ b / 16 + 1 ≤ 16) ∧ (1 ≤ b % 16 + 1 ∧ b % 16 + 1 ≤ 16))]
    have := ih hbs
    simp only [encBS] at this
    rw [this]
    simp only [Option.map_some']
    have : (b / 16 + 1 - 1) * 16 + (b % 16 + 1 - 1) = b := by omega
    rw [this]

/-! ### Envelope header -/

/-- Modelled from the spec: the envelope header
`{key_id, nonce, chunk_size, algorithm}` (JSON in the source), extended
with an `extra` field list so that "adding a field to the header" is
expressible.  `encrypt` always produces `extra = []`. -/
structure CryptoHeader where
  key_id : Bytes
  nonce : Bytes
  chunk_size : Nat
  algorithm : Bytes
  extra : List (Bytes × Bytes)
deriving DecidableEq, Repr

/-- Serialization of the extra header fields: each is marked by `19`. -/
def extraBytes (ex : List (Bytes × Bytes)) : Bytes :=
  ex.foldr (fun kv acc => 19 :: (encBS kv.1 ++ encBS kv.2 ++ acc)) []

/-- Serialization of the header record (the model's stand-in for the JSON
serialization; injective and NUL-free). -/
def headerBytes (h : CryptoHeader) : Bytes :=
  encBS h.key_id ++ encBS h.nonce ++ encNat h.chunk_size ++ encBS h.algorithm
    ++ extraBytes h.extra

/-- Parse the extra-field region (fuel-indexed on the byte count). -/
def parseExtraF : Nat → Bytes → Option (List (Bytes × Bytes))
  | _, [] => some []
  | 0, _ :: _ => none
  | fuel + 1, b :: r =>
    if b = 19 then
      (parseBS r).bind fun kr =>
        (parseBS kr.2).bind fun vr =>
          (parseExtraF fuel vr.2).map fun ex => (kr.1, vr.1) :: ex
    else none

/-- Parse a serialized header. Extra fields are accepted (as `json.loads`
accepts unknown keys); the caller keeps the raw bytes for use as
associated data. -/
def parseHeader (l : Bytes) : Option CryptoHeader :=
  (parseBS l).bind fun kidR =>
    (parseBS kidR.2).bind fun nncR =>
      (parseNat nncR.2).bind fun csR =>
        (parseBS csR.2).bind fun algR =>
          (parseExtraF algR.2.length algR.2).map fun ex =>
            ⟨kidR.1, nncR.1, csR.1, algR.1, ex⟩

theorem encBS_pos (l : Bytes) : ∀ x ∈ encBS l, 1 ≤ x := by
  induction l with
  | nil => intro x hx; simp [encBS] at hx; omega
  | cons b bs ih =>
    intro x hx
    simp only [encBS, List.foldr_cons, List.mem_cons] at hx
    rcases hx with h | h | h
    · omega
    · omega
    · exact ih x h

theorem encBS_le (l : Bytes) (hl : IsBytes l) : ∀ x ∈ encBS l, x ≤ 17 := by
  induction l with
  | nil => intro x hx; simp [encBS] at hx; omega
  | cons b bs ih =>
    have hb : b < 256 := hl b (by simp)
    have hbs : IsBytes bs := fun y hy => hl y (by simp [hy])
    intro x hx
    simp only [encBS, List.foldr_cons, List.mem_cons] at hx
    rcases hx with h | h | h
    · omega
    · omega
    · exact ih hbs x h

theorem natDigitsF_mem (fuel n : Nat) : ∀ x ∈ natDigitsF fuel n, 1 ≤ x ∧ x ≤ 16 := by
  induction fuel generalizing n with
  | zero => intro x hx; simp [natDigitsF] at hx
  | succ fuel ih =>
    intro x hx
    by_cases hn : n = 0
    · simp [natDigitsF, hn] at hx
    · simp only [natDigitsF, hn, if_false, List.mem_cons] at hx
      rcases hx with h | h
      · omega
      · exact ih (n / 16) x h

theorem encNat_mem (n : Nat) : ∀ x ∈ encNat n, 1 ≤ x ∧ x ≤ 17 := by
  intro x hx
  simp only [encNat, List.mem_append, List.mem_singleton] at hx
  rcases hx with h | h
  · have := natDigitsF_mem n n x h
    omega
  · omega

theorem extraBytes_pos (ex : List (Bytes × Bytes)) : ∀ x ∈ extraBytes ex, 1 ≤ x := by
  induction ex with
  | nil => intro x hx; simp [extraBytes] at hx
  | cons kv tl ih =>
    intro x hx
    simp only [extraBytes, List.foldr_cons, List.mem_cons, List.mem_append] at hx
    rcases hx with h | (h | h) | h
    · omega
    · exact encBS_pos _ x h
    · exact encBS_pos _ x h
    · exact ih x h

theorem extraBytes_le (ex : List (Bytes × Bytes))
    (hex : ∀ kv ∈ ex, IsBytes kv.1 ∧ IsBytes kv.2) :
    ∀ x ∈ extraBytes ex, x ≤ 19 := by
  induction ex with
  | nil => intro x hx; simp [extraBytes] at hx
  | cons kv tl ih =>
    intro x hx
    simp only [extraBytes, List.foldr_cons, List.mem_cons, List.mem_append] at hx
    rcases hx with h | (h | h) | h
    · omega
    · exact le_trans (encBS_le _ (hex kv (by simp)).1 x h) (by omega)
    · exact le_trans (encBS_le _ (hex kv (by simp)).2 x h) (by omega)
    · exact ih (fun kv' hkv' => hex kv' (by simp [hkv'])) x h

theorem headerBytes_pos (h : CryptoHeader) : ∀ x ∈ headerBytes h, 1 ≤ x := by
  intro x hx
  simp only [headerBytes, List.mem_append] at hx
  rcases hx with (((h1 | h2) | h3) | h4) | h5
  · exact encBS_pos _ x h1
  · exact encBS_pos _ x h2
  · exact (encNat_mem _ x h3).1
  · exact encBS_pos _ x h4
  · exact extraBytes_pos _ x h5

theorem headerBytes_lt256 (h : CryptoHeader) (hkid : IsBytes h.key_id)
    (hn : IsBytes h.nonce) (halg : IsBytes h.algorithm)
    (hex : ∀ kv ∈ h.extra, IsBytes kv.1 ∧ IsBytes kv.2) :
    IsBytes (headerBytes h) := by
  intro x hx
  simp only [headerBytes, List.mem_append] at hx
  rcases hx with (((h1 | h2) | h3) | h4) | h5
  · exact lt_of_le_of_lt (encBS_le _ hkid x h1) (by omega)
  · exact lt_of_le_of_lt (encBS_le _ hn x h2) (by omega)
  · exact lt_of_le_of_lt (encNat_mem _ x h3).2 (by omega)
  · exact lt_of_le_of_lt (encBS_le _ halg x h4) (by omega)
  · exact lt_of_le_of_lt (extraBytes_le _ hex x h5) (by omega)

/-- Split the stream at the first NUL byte: the header region and the
chunk region. `none` when no NUL is present (truncated metadata). -/
def splitNul : Bytes → Option (Bytes × Bytes)
  | [] => none
  | b :: r =>
    if b = 0 then some ([], r)
    else (splitNul r).map fun p => (b :: p.1, p.2)

theorem splitNul_append (hb region : Bytes) (h : ∀ x ∈ hb, 1 ≤ x) :
    splitNul (hb ++ 0 :: region) = some (hb, region) := by
  induction hb with
  | nil => simp [splitNul]
  | cons b bs ih =>
    have h1 : 1 ≤ b := h b (by simp)
    simp only [List.cons_append]
    rw [splitNul, if_neg (by omega)]
    rw [ih (fun x hx => h x (by simp [hx]))]
    simp [Option.map_some']

theorem splitNul_none (l : Bytes) (h : ∀ x ∈ l, 1 ≤ x) : splitNul l = none := by
  induction l with
  | nil => rfl
  | cons b bs ih =>
    have h1 : 1 ≤ b := h b (by simp)
    rw [splitNul, if_neg (by omega)]
    rw [ih (fun x hx => h x (by simp [hx]))]
    rfl

theorem parseHeader_headerBytes_nil (h : CryptoHeader) (hkid : IsBytes h.key_id)
    (hn : IsBytes h.nonce) (halg : IsBytes h.algorithm) (hex : h.extra = []) :
    parseHeader (headerBytes h) = some h := by
  obtain ⟨kid, nnc, cs, alg, ex⟩ := h
  -- projections reduce definitionally after destructuring
  subst hex
  simp only [headerBytes, extraBytes, List.foldr_nil, List.append_nil, parseHeader,
    List.append_assoc]
  rw [parseBS_encBS kid hkid]
  simp only [Option.some_bind]
  rw [parseBS_encBS nnc hn]
  simp only [Option.some_bind]
  rw [parseNat_encNat cs]
  simp only [Option.some_bind]
  rw [← List.append_nil (encBS alg)]
  rw [parseBS_encBS alg halg]
  simp [parseExtraF]

theorem parseHeader_headerBytes_one (h : CryptoHeader) (hkid : IsBytes h.key_id)
    (hn : IsBytes h.nonce) (halg : IsBytes h.algorithm)
    (k v : Bytes) (hk : IsBytes k) (hv : IsBytes v) (hex : h.extra = [(k, v)]) :
    parseHeader (headerBytes h) = some h := by
  obtain ⟨kid, nnc, cs, alg, ex⟩ := h
  -- projections reduce definitionally after destructuring
  subst hex
  simp only [headerBytes, parseHeader, List.append_assoc]
  rw [parseBS_encBS kid hkid]
  simp only [Option.some_bind]
  rw [parseBS_encBS nnc hn]
  simp only [Option.some_bind]
  rw [parseNat_encNat cs]
  simp only [Option.some_bind]
  rw [parseBS_encBS alg halg]
  simp only [Option.some_bind]
  simp only [extraBytes, List.foldr_cons, List.foldr_nil, List.append_nil,
    List.length_cons]
  rw [parseExtraF, if_pos rfl]
  rw [parseBS_encBS k hk]
  simp only [Option.some_bind]
  rw [← List.append_nil (encBS v)]
  rw [parseBS_encBS v hv]
  simp [parseExtraF]

/-! ### Ideal AEAD model

The spec assumes a vetted AEAD primitive (section 1, non-goals) and only
relies on its contract: deterministic sealing, and verification that
fails whenever ciphertext or associated data differ from what was
sealed.  The model realises that contract ideally: the chunk body is a
byte-wise additive stream cipher and the tag is a perfect MAC — an
injective pairing of (key, nonce, chunk index, associated data,
ciphertext).  A tag occupies one element of the chunk stream. -/

/-- Little-endian base-256 value of a byte string. -/
def radix (l : Bytes) : Nat := l.foldr (fun b acc => b + 256 * acc) 0

/-- Injective numeric code of a byte string (value paired with length). -/
def encB (l : Bytes) : Nat := Nat.pair (radix l) l.length

theorem radix_inj (l1 : Bytes) : ∀ l2 : Bytes, IsBytes l1 → IsBytes l2 →
    l1.length = l2.length → radix l1 = radix l2 → l1 = l2 := by
  induction l1 with
  | nil =>
    intro l2 _ _ hlen _
    exact (List.length_eq_zero.mp hlen.symm).symm
  | cons b1 r1 ih =>
    intro l2 h1 h2 hlen hr
    cases l2 with
    | nil => simp at hlen
    | cons b2 r2 =>
      have hb1 : b1 < 256 := h1 b1 (by simp)
      have hb2 : b2 < 256 := h2 b2 (by simp)
      simp only [radix, List.foldr_cons] at hr
      have hb : b1 = b2 ∧ radix r1 = radix r2 := by
        unfold radix
        omega
      have := ih r2 (fun x hx => h1 x (by simp [hx])) (fun x hx => h2 x (by simp [hx]))
        (by simpa using hlen) hb.2
      simp [hb.1, this]

theorem encB_inj (l1 l2 : Bytes) (h1 : IsBytes l1) (h2 : IsBytes l2)
    (h : encB l1 = encB l2) : l1 = l2 := by
  unfold encB at h
  have := Nat.pair_eq_pair.mp h
  exact radix_inj l1 l2 h1 h2 this.2 this.1

/-- The keystream byte at chunk `i`, offset `j` (any deterministic
derivation from key, base nonce and chunk index serves the model). -/
def keyStream (key nonce : Bytes) (i j : Nat) : Nat :=
  (radix key + 131 * radix nonce + 1009 * i + 31 * j) % 256

/-- Chunk-body encryption: byte-wise addition of the keystream mod 256. -/
def encCT (key nonce : Bytes) (i : Nat) : Nat → Bytes → Bytes
  | _, [] => []
  | j, b :: r => ((b + keyStream key nonce i j) % 256) :: encCT key nonce i (j + 1) r

/-- Chunk-body decryption (inverse of `encCT` on byte inputs). -/
def decCT (key nonce : Bytes) (i : Nat) : Nat → Bytes → Bytes
  | _, [] => []
  | j, c :: r => ((c + 256 - keyStream key nonce i j % 256) % 256) :: decCT key nonce i (j + 1) r

theorem decCT_encCT (key nonce : Bytes) (i : Nat) (m : Bytes) (hm : IsBytes m) :
    ∀ j, decCT key nonce i j (encCT key nonce i j m) = m := by
  induction m with
  | nil => intro j; rfl
  | cons b r ih =>
    intro j
    have hb : b < 256 := hm b (by simp)
    have hr : IsBytes r := fun x hx => hm x (by simp [hx])
    simp only [encCT, decCT]
    rw [ih hr (j + 1)]
    have hks : keyStream key nonce i j < 256 := Nat.mod_lt _ (by omega)
    congr 1
    omega

theorem encCT_length (key nonce : Bytes) (i : Nat) (m : Bytes) :
    ∀ j, (encCT key nonce i j m).length = m.length := by
  induction m with
  | nil => intro j; rfl
  | cons b r ih => intro j; simp [encCT, ih]

theorem encCT_isBytes (key nonce : Bytes) (i : Nat) (m : Bytes) :
    ∀ j, IsBytes (encCT key nonce i j m) := by
  induction m with
  | nil => intro j x hx; simp [encCT] at hx
  | cons b r ih =>
    intro j x hx
    simp only [encCT, List.mem_cons] at hx
    rcases hx with h | h
    · subst h; exact Nat.mod_lt _ (by omega)
    · exact ih (j + 1) x h

/-- The perfect MAC of the model: injective in ciphertext and associated
data (for byte-valued inputs). -/
def tagOf (key nonce : Bytes) (i : Nat) (ad ct : Bytes) : Nat :=
  Nat.pair (encB ct) (Nat.pair i (Nat.pair (encB ad) (Nat.pair (encB nonce) (encB key))))

theorem tagOf_ne_ct (key nonce : Bytes) (i : Nat) (ad ct ct' : Bytes)
    (h1 : IsBytes ct) (h2 : IsBytes ct') (hne : ct ≠ ct') :
    tagOf key nonce i ad ct ≠ tagOf key nonce i ad ct' := by
  intro h
  exact hne (encB_inj ct ct' h1 h2 (Nat.pair_eq_pair.mp h).1)

theorem tagOf_ne_ad (key nonce : Bytes) (i : Nat) (ad ad' ct : Bytes)
    (h1 : IsBytes ad) (h2 : IsBytes ad') (hne : ad ≠ ad') :
    tagOf key nonce i ad ct ≠ tagOf key nonce i ad' ct := by
  intro h
  have h' := (Nat.pair_eq_pair.mp (Nat.pair_eq_pair.mp (Nat.pair_eq_pair.mp h).2).2).1
  exact hne (encB_inj ad ad' h1 h2 h')

/-- One sealed chunk on the wire: the encrypted body followed by its tag
element. -/
def sealChunk (key nonce ad : Bytes) (i : Nat) (m : Bytes) : Bytes :=
  encCT key nonce i 0 m ++ [tagOf key nonce i ad (encCT key nonce i 0 m)]

theorem sealChunk_length (key nonce ad : Bytes) (i : Nat) (m : Bytes) :
    (sealChunk key nonce ad i m).length = m.length + 1 := by
  simp [sealChunk, encCT_length]

/-! ### The encrypting writer

Modelled from the spec: the write-mode stream of `crypto.open` buffers
written bytes, seals a full chunk whenever `CHUNK_SIZE` bytes have
accumulated, and on close seals the remaining partial (possibly empty)
buffer as the final chunk, producing
`MAGIC + header + NUL + chunk stream`. -/

/-- Writer state: pending buffer, emitted chunk stream, next chunk index. -/
structure EncSt where
  buf : Bytes
  out : Bytes
  idx : Nat
deriving DecidableEq, Repr

/-- Flush all complete chunks out of the buffer (fuel-indexed). -/
def flushF (key nonce ad : Bytes) : Nat → EncSt → EncSt
  | 0, s => s
  | fuel + 1, s =>
    if s.buf.length < CHUNK_SIZE then s
    else
      flushF key nonce ad fuel
        ⟨s.buf.drop CHUNK_SIZE,
         s.out ++ sealChunk key nonce ad s.idx (s.buf.take CHUNK_SIZE),
         s.idx + 1⟩

/-- `write(data)`: append to the buffer, then flush complete chunks. -/
def cwrite (key nonce ad : Bytes) (s : EncSt) (d : Bytes) : EncSt :=
  flushF key nonce ad (s.buf.length + d.length) ⟨s.buf ++ d, s.out, s.idx⟩

/-- `close()`: seal the remaining buffer as the final chunk and return
the chunk stream. -/
def cclose (key nonce ad : Bytes) (s : EncSt) : Bytes :=
  s.out ++ sealChunk key nonce ad s.idx s.buf

/-- The header produced by the encrypting writer. -/
def mkHeader (key : EncryptionKey) (nonce : Bytes) : CryptoHeader :=
  ⟨key.id, nonce, CHUNK_SIZE, ALG, []⟩

/-- Modelled from the spec: the full envelope produced by encrypting `p`
under `key` with base nonce `nonce`:
`MAGIC + header + NUL + chunk stream`. -/
def encryptBytes (key : EncryptionKey) (nonce p : Bytes) : Bytes :=
  MAGIC ++ headerBytes (mkHeader key nonce) ++
    0 :: cclose key.key nonce (headerBytes (mkHeader key nonce))
      (cwrite key.key nonce (headerBytes (mkHeader key nonce)) ⟨[], [], 0⟩ p)

/-- Modelled from the spec: `crypto.open(mode='w')` driven to completion
on one plaintext: `None` key requires plaintext fallback; a revoked key
is refused; otherwise the envelope is produced. -/
def cryptoEncrypt (key : Option EncryptionKey) (fallback : Bool) (nonce p : Bytes) :
    Except CryptoError Bytes :=
  match key with
  | none => if fallback then .ok p else .error .plaintextNotAllowed
  | some k => if k.revoked then .error .revokedKey else .ok (encryptBytes k nonce p)

/-- The sealed chunk stream of plaintext `p` starting at chunk index `i`
(fuel-indexed): full chunks while at least `CHUNK_SIZE` bytes remain,
then one final (possibly empty) short chunk. -/
def chunkStreamF (key nonce ad : Bytes) : Nat → Nat → Bytes → Bytes
  | 0, i, p => sealChunk key nonce ad i p
  | fuel + 1, i, p =>
    if p.length < CHUNK_SIZE then sealChunk key nonce ad i p
    else
      sealChunk key nonce ad i (p.take CHUNK_SIZE) ++
        chunkStreamF key nonce ad fuel (i + 1) (p.drop CHUNK_SIZE)

/-- The sealed chunk stream of plaintext `p` starting at chunk index `i`. -/
def chunkStream (key nonce ad : Bytes) (i : Nat) (p : Bytes) : Bytes :=
  chunkStreamF key nonce ad p.length i p

/-! ### The decrypting reader -/

/-- Decode and verify the chunk region (fuel-indexed): full sealed chunks
of `cs + 1` elements, then a final short chunk; every tag is checked
against the recomputed MAC and any mismatch is an integrity error. -/
def decodeChunksF (key nonce ad : Bytes) (cs : Nat) : Nat → Nat → Bytes → Except CryptoError Bytes
  | 0, _, region => if region = [] then .ok [] else .error .integrityError
  | fuel + 1, i, region =>
    if region = [] then .ok []
    else if region.length ≤ cs then
      if region.getLast?.getD 0 = tagOf key nonce i ad region.dropLast then
        .ok (decCT key nonce i 0 region.dropLast)
      else .error .integrityError
    else
      if region.getD cs 0 = tagOf key nonce i ad (region.take cs) then
        (decodeChunksF key nonce ad cs fuel (i + 1) (region.drop (cs + 1))).map
          (fun rest => decCT key nonce i 0 (region.take cs) ++ rest)
      else .error .integrityError

/-- Key map lookup (`keys: id -> Key`). -/
def lookupKey : List (Bytes × EncryptionKey) → Bytes → Option EncryptionKey
  | [], _ => none
  | (k, v) :: r, kid => if k = kid then some v else lookupKey r kid

/-- The two kinds of readable stream `crypto.open(mode='r')` returns:
verbatim plaintext (fallback) or a decrypting handle on the parsed
envelope. -/
inductive ReadHandle where
  | plain (data : Bytes)
  | enc (key : EncryptionKey) (hd : CryptoHeader) (ad : Bytes) (region : Bytes)
deriving DecidableEq, Repr

/-- Modelled from the spec: the envelope-opening front end of
`crypto.open(mode='r')`: magic check (anything without the full magic
prefix is plaintext), header isolation at the first NUL, header parse,
key lookup and revocation check. -/
def openAny (keys : List (Bytes × EncryptionKey)) (fallback : Bool) (data : Bytes) :
    Except CryptoError ReadHandle :=
  if data.take MAGIC.length = MAGIC then
    match splitNul (data.drop MAGIC.length) with
    | none => .error .malformedHeader
    | some (hb, region) =>
      match parseHeader hb with
      | none => .error .malformedHeader
      | some hd =>
        match lookupKey keys hd.key_id with
        | none => .error .missingKey
        | some k =>
          if k.revoked then .error .revokedKey else .ok (.enc k hd hb region)
  else if fallback then .ok (.plain data) else .error .plaintextNotAllowed

/-- Modelled from the spec: open followed by a full read — the whole
plaintext, or the error. -/
def openFull (keys : List (Bytes × EncryptionKey)) (fallback : Bool) (data : Bytes) :
    Except CryptoError Bytes :=
  match openAny keys fallback data with
  | .error e => .error e
  | .ok (.plain d) => .ok d
  | .ok (.enc k hd ad region) =>
    decodeChunksF k.key hd.nonce ad hd.chunk_size region.length 0 region

/-! ### Writer / reader correspondence -/

theorem getD_mid (l : Bytes) (t : Nat) (r : Bytes) : (l ++ t :: r).getD l.length 0 = t := by
  rw [List.getD_eq_getElem?_getD, List.getElem?_append_right le_rfl]
  simp

theorem drop_mid (l : Bytes) (t : Nat) (r : Bytes) : (l ++ t :: r).drop (l.length + 1) = r := by
  have h : (l ++ [t]).length = l.length + 1 := by simp
  have h2 := @List.drop_left' Nat (l ++ [t]) r (l.length + 1) h
  simpa using h2

theorem chunkStreamF_congr (key nonce ad : Bytes) :
    ∀ f1 f2 i (p : Bytes), p.length ≤ f1 → p.length ≤ f2 →
      chunkStreamF key nonce ad f1 i p = chunkStreamF key nonce ad f2 i p := by
  intro f1
  induction f1 with
  | zero =>
    intro f2 i p h1 _
    have hp : p = [] := List.length_eq_zero.mp (by omega)
    subst hp
    cases f2 with
    | zero => rfl
    | succ f2 =>
      simp [chunkStreamF, CHUNK_SIZE]
  | succ f1 ih =>
    intro f2 i p h1 h2
    cases f2 with
    | zero =>
      have hp : p = [] := List.length_eq_zero.mp (by omega)
      subst hp
      simp [chunkStreamF, CHUNK_SIZE]
    | succ f2 =>
      simp only [chunkStreamF]
      by_cases hlt : p.length < CHUNK_SIZE
      · simp [hlt]
      · simp only [hlt, if_false]
        have hcs : 1 ≤ CHUNK_SIZE := by simp [CHUNK_SIZE]
        have hlen : (p.drop CHUNK_SIZE).length ≤ f1 := by
          simp only [List.length_drop]
          omega
        have hlen2 : (p.drop CHUNK_SIZE).length ≤ f2 := by
          simp only [List.length_drop]
          omega
        rw [ih f2 (i + 1) (p.drop CHUNK_SIZE) hlen hlen2]

theorem chunkStream_short (key nonce ad : Bytes) (i : Nat) (p : Bytes)
    (h : p.length < CHUNK_SIZE) :
    chunkStream key nonce ad i p = sealChunk key nonce ad i p := by
  unfold chunkStream
  cases hp : p.length with
  | zero => rfl
  | succ m =>
    simp only [chunkStreamF]
    rw [if_pos (by omega)]

theorem chunkStream_long (key nonce ad : Bytes) (i : Nat) (p : Bytes)
    (h : CHUNK_SIZE ≤ p.length) :
    chunkStream key nonce ad i p =
      sealChunk key nonce ad i (p.take CHUNK_SIZE) ++
        chunkStream key nonce ad (i + 1) (p.drop CHUNK_SIZE) := by
  unfold chunkStream
  have hcs : 1 ≤ CHUNK_SIZE := by simp [CHUNK_SIZE]
  have hp : p.length = (p.length - 1) + 1 := by omega
  rw [hp]
  simp only [chunkStreamF]
  rw [if_neg (by omega)]
  congr 1
  exact chunkStreamF_congr key nonce ad (p.length - 1) (p.drop CHUNK_SIZE).length (i + 1)
    (p.drop CHUNK_SIZE) (by simp only [List.length_drop]; omega) le_rfl

theorem cclose_flushF (key nonce ad : Bytes) :
    ∀ f (buf out : Bytes) idx, buf.length ≤ f →
      cclose key nonce ad (flushF key nonce ad f ⟨buf, out, idx⟩) =
        out ++ chunkStream key nonce ad idx buf := by
  intro f
  induction f with
  | zero =>
    intro buf out idx h
    have hb : buf = [] := List.length_eq_zero.mp (by omega)
    subst hb
    simp only [flushF, cclose]
    rw [chunkStream_short key nonce ad idx [] (by simp [CHUNK_SIZE])]
  | succ f ih =>
    intro buf out idx h
    simp only [flushF]
    by_cases hlt : buf.length < CHUNK_SIZE
    · simp only [hlt, if_pos, if_true]
      simp only [cclose]
      rw [chunkStream_short key nonce ad idx buf hlt]
    · simp only [hlt, if_false]
      have hcs : 1 ≤ CHUNK_SIZE := by simp [CHUNK_SIZE]
      rw [ih (buf.drop CHUNK_SIZE)
        (out ++ sealChunk key nonce ad idx (buf.take CHUNK_SIZE)) (idx + 1)
        (by simp only [List.length_drop]; omega)]
      rw [chunkStream_long key nonce ad idx buf (by omega)]
      simp [List.append_assoc]

/-- The envelope laid out as magic, header bytes, NUL, chunk stream. -/
theorem encryptBytes_eq (key : EncryptionKey) (nonce p : Bytes) :
    encryptBytes key nonce p =
      MAGIC ++ headerBytes (mkHeader key nonce) ++
        0 :: chunkStream key.key nonce (headerBytes (mkHeader key nonce)) 0 p := by
  unfold encryptBytes cwrite
  rw [show ([] : Bytes) ++ p = p by simp]
  have := cclose_flushF key.key nonce (headerBytes (mkHeader key nonce))
    (([] : Bytes).length + p.length) p [] 0 (by simp)
  rw [this]
  simp

theorem decodeChunksF_congr (key nonce ad : Bytes) (cs : Nat) :
    ∀ f1 f2 i (region : Bytes), region.length ≤ f1 → region.length ≤ f2 →
      decodeChunksF key nonce ad cs f1 i region = decodeChunksF key nonce ad cs f2 i region := by
  intro f1
  induction f1 with
  | zero =>
    intro f2 i region h1 _
    have hr : region = [] := List.length_eq_zero.mp (by omega)
    subst hr
    cases f2 <;> simp [decodeChunksF]
  | succ f1 ih =>
    intro f2 i region h1 h2
    cases f2 with
    | zero =>
      have hr : region = [] := List.length_eq_zero.mp (by omega)
      subst hr
      simp [decodeChunksF]
    | succ f2 =>
      simp only [decodeChunksF]
      by_cases hnil : region = []
      · simp [hnil]
      · simp only [hnil, if_false]
        by_cases hshort : region.length ≤ cs
        · simp [hshort]
        · simp only [hshort, if_false]
          have hlen : (region.drop (cs + 1)).length ≤ f1 := by
            simp only [List.length_drop]
            omega
          have hlen2 : (region.drop (cs + 1)).length ≤ f2 := by
            simp only [List.length_drop]
            omega
          rw [ih f2 (i + 1) (region.drop (cs + 1)) hlen hlen2]

theorem decode_chunkStream (key nonce ad : Bytes) :
    ∀ f (p : Bytes) i, p.length ≤ f → IsBytes p →
      decodeChunksF key nonce ad CHUNK_SIZE (chunkStream key nonce ad i p).length i
        (chunkStream key nonce ad i p) = .ok p := by
  intro f
  induction f with
  | zero =>
    intro p i h hp
    have hnil : p = [] := List.length_eq_zero.mp (by omega)
    subst hnil
    rw [chunkStream_short key nonce ad i [] (by simp [CHUNK_SIZE])]
    simp [sealChunk, encCT, decodeChunksF, decCT, CHUNK_SIZE]
  | succ f ih =>
    intro p i h hp
    by_cases hlt : p.length < CHUNK_SIZE
    · rw [chunkStream_short key nonce ad i p hlt]
      have hslen : (sealChunk key nonce ad i p).length = p.length + 1 :=
        sealChunk_length key nonce ad i p
      rw [hslen]
      simp only [decodeChunksF, sealChunk]
      rw [if_neg (by simp)]
      rw [if_pos (by
        simp only [List.length_append, encCT_length, List.length_singleton]
        omega)]
      rw [List.getLast?_concat, List.dropLast_concat]
      simp only [Option.getD_some]
      simp only [if_pos trivial, eq_self_iff_true, if_true]
      rw [decCT_encCT key nonce i p hp 0]
    · rw [chunkStream_long key nonce ad i p (by omega)]
      have htake : (p.take CHUNK_SIZE).length = CHUNK_SIZE := by
        simp only [List.length_take]
        omega
      have hA : (encCT key nonce i 0 (p.take CHUNK_SIZE)).length = CHUNK_SIZE := by
        rw [encCT_length]
        exact htake
      set A := encCT key nonce i 0 (p.take CHUNK_SIZE) with hAdef
      set t := tagOf key nonce i ad A with htdef
      set R := chunkStream key nonce ad (i + 1) (p.drop CHUNK_SIZE) with hRdef
      have hshape : sealChunk key nonce ad i (p.take CHUNK_SIZE) ++ R = A ++ t :: R := by
        simp [sealChunk, hAdef, htdef, List.append_assoc]
      rw [hshape]
      have hflen : (A ++ t :: R).length = (CHUNK_SIZE + R.length) + 1 := by
        simp [hA]
        omega
      rw [hflen]
      simp only [decodeChunksF]
      rw [if_neg (by simp)]
      rw [if_neg (by
        simp only [List.length_append, List.length_cons, hA]
        omega)]
      rw [show (A ++ t :: R).take CHUNK_SIZE = A from List.take_left' hA]
      rw [show (A ++ t :: R).getD CHUNK_SIZE 0 = t by
        rw [← hA]
        exact getD_mid A t R]
      rw [if_pos rfl]
      rw [show (A ++ t :: R).drop (CHUNK_SIZE + 1) = R by
        rw [← hA]
        exact drop_mid A t R]
      have hcs : 1 ≤ CHUNK_SIZE := by simp [CHUNK_SIZE]
      have hdroplen : (p.drop CHUNK_SIZE).length ≤ f := by
        simp only [List.length_drop]
        omega
      have hdropbytes : IsBytes (p.drop CHUNK_SIZE) :=
        fun x hx => hp x (List.mem_of_mem_drop hx)
      have hrec := ih (p.drop CHUNK_SIZE) (i + 1) hdroplen hdropbytes
      rw [decodeChunksF_congr key nonce ad CHUNK_SIZE (CHUNK_SIZE + R.length) R.length
        (i + 1) R (by omega) le_rfl]
      rw [hRdef]
      rw [hrec]
      simp only [Except.map]
      rw [decCT_encCT key nonce i (p.take CHUNK_SIZE)
        (fun x hx => hp x (List.mem_of_mem_take hx)) 0]
      rw [List.take_append_drop]

theorem openAny_encryptBytes (keys : List (Bytes × EncryptionKey)) (fallback : Bool)
    (key : EncryptionKey) (nonce p : Bytes)
    (hkid : IsBytes key.id) (hn : IsBytes nonce)
    (hlook : lookupKey keys key.id = some key) (hrev : key.revoked = false) :
    openAny keys fallback (encryptBytes key nonce p) =
      .ok (.enc key (mkHeader key nonce) (headerBytes (mkHeader key nonce))
        (chunkStream key.key nonce (headerBytes (mkHeader key nonce)) 0 p)) := by
  rw [encryptBytes_eq]
  have h1 : (MAGIC ++ (headerBytes (mkHeader key nonce) ++
      0 :: chunkStream key.key nonce (headerBytes (mkHeader key nonce)) 0 p)).take
        MAGIC.length = MAGIC := List.take_left _ _
  have h2 : (MAGIC ++ (headerBytes (mkHeader key nonce) ++
      0 :: chunkStream key.key nonce (headerBytes (mkHeader key nonce)) 0 p)).drop
        MAGIC.length = headerBytes (mkHeader key nonce) ++
          0 :: chunkStream key.key nonce (headerBytes (mkHeader key nonce)) 0 p :=
    List.drop_left _ _
  simp only [openAny, List.append_assoc] at h1 h2 ⊢
  rw [if_pos h1, h2]
  rw [splitNul_append _ _ (headerBytes_pos (mkHeader key nonce))]
  have hparse : parseHeader (headerBytes (mkHeader key nonce)) = some (mkHeader key nonce) :=
    parseHeader_headerBytes_nil (mkHeader key nonce) hkid hn
      (by show IsBytes ALG; decide) rfl
  have hkidEq : (mkHeader key nonce).key_id = key.id := rfl
  simp only [hparse, hkidEq, hlook, hrev, Bool.false_eq_true, if_false]

theorem openFull_encryptBytes (keys : List (Bytes × EncryptionKey)) (fallback : Bool)
    (key : EncryptionKey) (nonce p : Bytes)
    (hkid : IsBytes key.id) (hn : IsBytes nonce) (hp : IsBytes p)
    (hlook : lookupKey keys key.id = some key) (hrev : key.revoked = false) :
    openFull keys fallback (encryptBytes key nonce p) = .ok p := by
  unfold openFull
  rw [openAny_encryptBytes keys fallback key nonce p hkid hn hlook hrev]
  exact decode_chunkStream key.key nonce (headerBytes (mkHeader key nonce))
    p.length p 0 le_rfl hp

/-! ### Write chunking independence -/

theorem flushF_short_id (key nonce ad : Bytes) (s : EncSt)
    (h : s.buf.length < CHUNK_SIZE) : ∀ f, flushF key nonce ad f s = s := by
  intro f
  cases f with
  | zero => rfl
  | succ f => simp [flushF, h]

theorem flushF_congr (key nonce ad : Bytes) :
    ∀ f1 f2 (s : EncSt), s.buf.length ≤ f1 → s.buf.length ≤ f2 →
      flushF key nonce ad f1 s = flushF key nonce ad f2 s := by
  intro f1
  induction f1 with
  | zero =>
    intro f2 s h1 _
    have hshort : s.buf.length < CHUNK_SIZE := by simp [CHUNK_SIZE]; omega
    rw [flushF_short_id key nonce ad s hshort, flushF_short_id key nonce ad s hshort]
  | succ f1 ih =>
    intro f2 s h1 h2
    by_cases hshort : s.buf.length < CHUNK_SIZE
    · rw [flushF_short_id key nonce ad s hshort, flushF_short_id key nonce ad s hshort]
    · cases f2 with
      | zero =>
        simp only [CHUNK_SIZE] at hshort
        omega
      | succ f2 =>
        simp only [flushF, hshort, if_false]
        have hcs : 1 ≤ CHUNK_SIZE := by simp [CHUNK_SIZE]
        exact ih f2 _ (by simp only [List.length_drop]; omega)
          (by simp only [List.length_drop]; omega)

theorem flushF_buf_lt (key nonce ad : Bytes) :
    ∀ f (s : EncSt), s.buf.length ≤ f →
      (flushF key nonce ad f s).buf.length < CHUNK_SIZE := by
  intro f
  induction f with
  | zero =>
    intro s h
    simp only [flushF, CHUNK_SIZE]
    omega
  | succ f ih =>
    intro s h
    by_cases hshort : s.buf.length < CHUNK_SIZE
    · simp only [flushF, hshort, if_true]
    · simp only [flushF, hshort, if_false]
      have hcs : 1 ≤ CHUNK_SIZE := by simp [CHUNK_SIZE]
      exact ih _ (by simp only [List.length_drop]; omega)

theorem flushF_append (key nonce ad : Bytes) :
    ∀ f (X o : Bytes) i (d : Bytes), X.length ≤ f →
      flushF key nonce ad (X.length + d.length) ⟨X ++ d, o, i⟩ =
        flushF key nonce ad ((flushF key nonce ad f ⟨X, o, i⟩).buf.length + d.length)
          ⟨(flushF key nonce ad f ⟨X, o, i⟩).buf ++ d,
           (flushF key nonce ad f ⟨X, o, i⟩).out,
           (flushF key nonce ad f ⟨X, o, i⟩).idx⟩ := by
  intro f
  induction f with
  | zero =>
    intro X o i d h
    have hX : X = [] := List.length_eq_zero.mp (by omega)
    subst hX
    rfl
  | succ f ih =>
    intro X o i d h
    by_cases hshort : X.length < CHUNK_SIZE
    · rw [flushF_short_id key nonce ad ⟨X, o, i⟩ (by simpa) (f + 1)]
    · have hcs : 1 ≤ CHUNK_SIZE := by simp [CHUNK_SIZE]
      have hXd : CHUNK_SIZE ≤ (X ++ d).length := by
        simp only [List.length_append]
        omega
      have hlen1 : X.length + d.length = ((X ++ d).length - 1) + 1 := by
        simp only [List.length_append]
        omega
      rw [hlen1]
      simp only [flushF]
      rw [if_neg (by omega)]
      rw [if_neg (by simpa using hshort)]
      have htake : (X ++ d).take CHUNK_SIZE = X.take CHUNK_SIZE := by
        rw [List.take_append_of_le_length (by omega)]
      have hdrop : (X ++ d).drop CHUNK_SIZE = X.drop CHUNK_SIZE ++ d := by
        rw [List.drop_append_of_le_length (by omega)]
      simp only [htake, hdrop]
      have hfuel : flushF key nonce ad ((X ++ d).length - 1)
          ⟨X.drop CHUNK_SIZE ++ d, o ++ sealChunk key nonce ad i (X.take CHUNK_SIZE), i + 1⟩ =
        flushF key nonce ad ((X.drop CHUNK_SIZE).length + d.length)
          ⟨X.drop CHUNK_SIZE ++ d, o ++ sealChunk key nonce ad i (X.take CHUNK_SIZE), i + 1⟩ := by
        apply flushF_congr
        · simp only [List.length_append, List.length_drop]
          omega
        · simp only [List.length_append, List.length_drop]
          omega
      rw [hfuel]
      exact ih (X.drop CHUNK_SIZE) _ (i + 1) d (by simp only [List.length_drop]; omega)

theorem cwrite_append (key nonce ad : Bytes) (s : EncSt) (d1 d2 : Bytes) :
    cwrite key nonce ad (cwrite key nonce ad s d1) d2 =
      cwrite key nonce ad s (d1 ++ d2) := by
  unfold cwrite
  have h1 : s.buf.length + d1.length = (s.buf ++ d1).length := by simp
  have h2 : s.buf.length + (d1 ++ d2).length = (s.buf ++ d1).length + d2.length := by
    simp
    omega
  rw [h2]
  have h3 : s.buf ++ (d1 ++ d2) = (s.buf ++ d1) ++ d2 := by simp
  rw [h3]
  rw [h1]
  exact (flushF_append key nonce ad (s.buf ++ d1).length (s.buf ++ d1) s.out s.idx d2
    le_rfl).symm

/-- Drive the encrypting writer with a list of separate write calls. -/
def writeAll (key nonce ad : Bytes) (s : EncSt) (pieces : List Bytes) : EncSt :=
  pieces.foldl (cwrite key nonce ad) s

theorem writeAll_join (key nonce ad : Bytes) :
    ∀ (pieces : List Bytes) (s : EncSt), s.buf.length < CHUNK_SIZE →
      writeAll key nonce ad s pieces = cwrite key nonce ad s pieces.flatten := by
  intro pieces
  induction pieces with
  | nil =>
    intro s h
    simp only [writeAll, List.foldl_nil, List.flatten_nil, cwrite, List.append_nil,
      List.length_nil, Nat.add_zero]
    exact (flushF_short_id key nonce ad s h _).symm
  | cons d rest ih =>
    intro s h
    simp only [writeAll, List.foldl_cons, List.flatten_cons]
    have hlt : (cwrite key nonce ad s d).buf.length < CHUNK_SIZE := by
      unfold cwrite
      exact flushF_buf_lt key nonce ad _ _ (by simp)
    rw [show List.foldl (cwrite key nonce ad) (cwrite key nonce ad s d) rest =
      writeAll key nonce ad (cwrite key nonce ad s d) rest from rfl]
    rw [ih (cwrite key nonce ad s d) hlt]
    exact cwrite_append key nonce ad s d rest.flatten

/-! ### Seekable decrypting reader -/

/-- Modelled from the spec: the read-mode stream state over a parsed
envelope: cipher parameters, raw header bytes (the associated data),
chunk region, and current plaintext position. -/
structure DecReader where
  key : Bytes
  nonce : Bytes
  ad : Bytes
  cs : Nat
  region : Bytes
  pos : Nat
deriving DecidableEq, Repr

/-- Total plaintext length derived from the region size: each sealed
chunk carries one tag element and the chunk count is the region length
divided by `cs + 1`, rounded up. -/
def plaintextLength (r : DecReader) : Nat :=
  r.region.length - (r.region.length + r.cs) / (r.cs + 1)

/-- Seek origins: `io.SEEK_SET`, `io.SEEK_CUR`, `io.SEEK_END`. -/
inductive Whence where
  | absolute
  | relative
  | fromEnd
deriving DecidableEq, Repr

/-- The absolute position a seek resolves to. -/
def seekTarget (r : DecReader) (whence : Whence) (off : Int) : Int :=
  match whence with
  | .absolute => off
  | .relative => (r.pos : Int) + off
  | .fromEnd => (plaintextLength r : Int) + off

/-- `seek(offset, whence)`: recompute the absolute position. -/
def streamSeek (r : DecReader) (whence : Whence) (off : Int) : DecReader :=
  { r with pos := (seekTarget r whence off).toNat }

/-- `tell()`. -/
def streamTell (r : DecReader) : Nat := r.pos

/-- Decode and verify up to `k` sealed chunks from the front of `region`
(chunk indices starting at `i`); a final short chunk ends the stream. -/
def decodeK (key nonce ad : Bytes) (cs : Nat) : Nat → Nat → Bytes → Except CryptoError Bytes
  | 0, _, _ => .ok []
  | k + 1, i, region =>
    if region = [] then .ok []
    else if region.length ≤ cs then
      if region.getLast?.getD 0 = tagOf key nonce i ad region.dropLast then
        .ok (decCT key nonce i 0 region.dropLast)
      else .error .integrityError
    else
      if region.getD cs 0 = tagOf key nonce i ad (region.take cs) then
        (decodeK key nonce ad cs k (i + 1) (region.drop (cs + 1))).map
          (fun rest => decCT key nonce i 0 (region.take cs) ++ rest)
      else .error .integrityError

/-- `read(n)`: locate the chunk holding the current offset, verify and
decrypt only from that chunk boundary through the last needed chunk, and
return the requested slice, advancing the position. -/
def streamRead (r : DecReader) (n : Nat) : Except CryptoError (Bytes × DecReader) :=
  let plen := plaintextLength r
  let stop := min (r.pos + n) plen
  if stop ≤ r.pos then .ok ([], r)
  else
    let c0 := r.pos / r.cs
    let k := (stop + r.cs - 1) / r.cs - c0
    match decodeK r.key r.nonce r.ad r.cs k c0 (r.region.drop (c0 * (r.cs + 1))) with
    | .error e => .error e
    | .ok bytes =>
      .ok ((bytes.drop (r.pos - c0 * r.cs)).take (stop - r.pos), { r with pos := stop })

/-- The read handle for a parsed envelope, positioned at offset zero. -/
def mkReader (k : EncryptionKey) (hd : CryptoHeader) (ad region : Bytes) : DecReader :=
  ⟨k.key, hd.nonce, ad, hd.chunk_size, region, 0⟩

theorem chunkStream_length (key nonce ad : Bytes) :
    ∀ f (p : Bytes) i, p.length ≤ f →
      (chunkStream key nonce ad i p).length = p.length + p.length / CHUNK_SIZE + 1 := by
  intro f
  induction f with
  | zero =>
    intro p i h
    have hp : p = [] := List.length_eq_zero.mp (by omega)
    subst hp
    rw [chunkStream_short key nonce ad i [] (by simp [CHUNK_SIZE])]
    simp [sealChunk, encCT, CHUNK_SIZE]
  | succ f ih =>
    intro p i h
    by_cases hlt : p.length < CHUNK_SIZE
    · rw [chunkStream_short key nonce ad i p hlt]
      rw [sealChunk_length]
      simp only [CHUNK_SIZE] at hlt ⊢
      omega
    · rw [chunkStream_long key nonce ad i p (by omega)]
      have hcs : 1 ≤ CHUNK_SIZE := by simp [CHUNK_SIZE]
      rw [List.length_append, sealChunk_length]
      rw [ih (p.drop CHUNK_SIZE) (i + 1) (by simp only [List.length_drop]; omega)]
      simp only [List.length_take, List.length_drop]
      simp only [CHUNK_SIZE] at hlt ⊢
      omega

theorem chunkStream_length_eq (key nonce ad : Bytes) (p : Bytes) (i : Nat) :
    (chunkStream key nonce ad i p).length = p.length + p.length / CHUNK_SIZE + 1 :=
  chunkStream_length key nonce ad p.length p i le_rfl

theorem chunkStream_ne_nil (key nonce ad : Bytes) (p : Bytes) (i : Nat) :
    chunkStream key nonce ad i p ≠ [] := by
  intro h
  have := chunkStream_length_eq key nonce ad p i
  rw [h] at this
  simp at this

theorem chunkStream_drop (key nonce ad : Bytes) :
    ∀ j (p : Bytes) i, j ≤ p.length / CHUNK_SIZE →
      (chunkStream key nonce ad i p).drop (j * (CHUNK_SIZE + 1)) =
        chunkStream key nonce ad (i + j) (p.drop (j * CHUNK_SIZE)) := by
  intro j
  induction j with
  | zero => intro p i h; simp
  | succ j ih =>
    intro p i h
    have hcs : CHUNK_SIZE = 8 := rfl
    have hlen : CHUNK_SIZE ≤ p.length := by
      by_contra hc
      have : p.length / CHUNK_SIZE = 0 := Nat.div_eq_of_lt (by omega)
      omega
    rw [chunkStream_long key nonce ad i p hlen]
    have hseal : (sealChunk key nonce ad i (p.take CHUNK_SIZE)).length = CHUNK_SIZE + 1 := by
      rw [sealChunk_length]
      simp only [List.length_take]
      omega
    have hsplit : (j + 1) * (CHUNK_SIZE + 1) = (CHUNK_SIZE + 1) + j * (CHUNK_SIZE + 1) := by
      ring
    rw [hsplit]
    rw [← List.drop_drop]
    rw [List.drop_left' hseal]
    have hquot : j ≤ (p.drop CHUNK_SIZE).length / CHUNK_SIZE := by
      simp only [List.length_drop, hcs] at h ⊢
      omega
    rw [ih (p.drop CHUNK_SIZE) (i + 1) hquot]
    congr 1
    · omega
    · rw [List.drop_drop]
      congr 1
      ring

theorem decodeK_chunkStream (key nonce ad : Bytes) :
    ∀ k fb (t : Bytes) i, t.length ≤ fb → IsBytes t →
      decodeK key nonce ad CHUNK_SIZE k i (chunkStream key nonce ad i t) =
        .ok (t.take (k * CHUNK_SIZE)) := by
  intro k
  induction k with
  | zero => intro fb t i hfb ht; simp [decodeK]
  | succ k ih =>
    intro fb t i hfb ht
    by_cases hlt : t.length < CHUNK_SIZE
    · rw [chunkStream_short key nonce ad i t hlt]
      simp only [decodeK, sealChunk]
      rw [if_neg (by simp)]
      rw [if_pos (by
        simp only [List.length_append, encCT_length, List.length_singleton]
        omega)]
      rw [List.getLast?_concat, List.dropLast_concat]
      simp only [Option.getD_some]
      simp only [if_pos trivial, eq_self_iff_true, if_true]
      rw [decCT_encCT key nonce i t ht 0]
      rw [List.take_of_length_le (by
        have : 1 ≤ CHUNK_SIZE := by simp [CHUNK_SIZE]
        calc t.length ≤ CHUNK_SIZE := by omega
          _ ≤ (k + 1) * CHUNK_SIZE := by
            have := Nat.le_mul_of_pos_left CHUNK_SIZE (show 0 < k + 1 by omega)
            omega)]
    · rw [chunkStream_long key nonce ad i t (by omega)]
      have hcs : 1 ≤ CHUNK_SIZE := by simp [CHUNK_SIZE]
      have htake : (t.take CHUNK_SIZE).length = CHUNK_SIZE := by
        simp only [List.length_take]
        omega
      have hA : (encCT key nonce i 0 (t.take CHUNK_SIZE)).length = CHUNK_SIZE := by
        rw [encCT_length]
        exact htake
      set A := encCT key nonce i 0 (t.take CHUNK_SIZE) with hAdef
      set t2 := tagOf key nonce i ad A with ht2def
      set R := chunkStream key nonce ad (i + 1) (t.drop CHUNK_SIZE) with hRdef
      have hshape : sealChunk key nonce ad i (t.take CHUNK_SIZE) ++ R = A ++ t2 :: R := by
        simp [sealChunk, hAdef, ht2def, List.append_assoc]
      rw [hshape]
      simp only [decodeK]
      rw [if_neg (by simp)]
      rw [if_neg (by
        simp only [List.length_append, List.length_cons, hA]
        omega)]
      rw [show (A ++ t2 :: R).take CHUNK_SIZE = A from List.take_left' hA]
      rw [show (A ++ t2 :: R).getD CHUNK_SIZE 0 = t2 by
        rw [← hA]
        exact getD_mid A t2 R]
      rw [if_pos rfl]
      rw [show (A ++ t2 :: R).drop (CHUNK_SIZE + 1) = R by
        rw [← hA]
        exact drop_mid A t2 R]
      have hfb' : (t.drop CHUNK_SIZE).length ≤ fb - 1 := by
        simp only [List.length_drop]
        omega
      have hbytes' : IsBytes (t.drop CHUNK_SIZE) :=
        fun x hx => ht x (List.mem_of_mem_drop hx)
      rw [hRdef]
      rw [ih (fb - 1) (t.drop CHUNK_SIZE) (i + 1) hfb' hbytes']
      simp only [Except.map]
      rw [decCT_encCT key nonce i (t.take CHUNK_SIZE)
        (fun x hx => ht x (List.mem_of_mem_take hx)) 0]
      rw [← List.take_add]
      have harg : CHUNK_SIZE + k * CHUNK_SIZE = (k + 1) * CHUNK_SIZE := by ring
      rw [harg]

theorem plaintextLength_chunkStream (key nonce ad p : Bytes) (pos : Nat) :
    plaintextLength ⟨key, nonce, ad, CHUNK_SIZE, chunkStream key nonce ad 0 p, pos⟩ =
      p.length := by
  unfold plaintextLength
  simp only
  rw [chunkStream_length_eq]
  simp only [CHUNK_SIZE]
  omega

theorem streamRead_chunkStream (key nonce ad p : Bytes) (hp : IsBytes p) (pos n : Nat)
    (hpos : pos ≤ p.length) :
    streamRead ⟨key, nonce, ad, CHUNK_SIZE, chunkStream key nonce ad 0 p, pos⟩ n =
      .ok ((p.drop pos).take n,
        ⟨key, nonce, ad, CHUNK_SIZE, chunkStream key nonce ad 0 p,
          min (pos + n) p.length⟩) := by
  have hplen := plaintextLength_chunkStream key nonce ad p pos
  simp only [streamRead, hplen]
  by_cases hstop : min (pos + n) p.length ≤ pos
  · rw [if_pos hstop]
    have hstopeq : min (pos + n) p.length = pos := by omega
    have hempty : (p.drop pos).take n = [] := by
      rcases Nat.eq_zero_or_pos n with h0 | h0
      · simp [h0]
      · have hposlen : pos = p.length := by omega
        rw [hposlen, List.drop_length]
        simp
    rw [hempty, hstopeq]
  · rw [if_neg hstop]
    have hposlt : pos < p.length := by omega
    have hc0 : pos / CHUNK_SIZE ≤ p.length / CHUNK_SIZE :=
      Nat.div_le_div_right hpos
    rw [chunkStream_drop key nonce ad (pos / CHUNK_SIZE) p 0 hc0]
    simp only [Nat.zero_add]
    rw [decodeK_chunkStream key nonce ad _ (p.drop (pos / CHUNK_SIZE * CHUNK_SIZE)).length
      (p.drop (pos / CHUNK_SIZE * CHUNK_SIZE)) (pos / CHUNK_SIZE) le_rfl
      (fun x hx => hp x (List.mem_of_mem_drop hx))]
    simp only
    rw [List.drop_take]
    rw [List.drop_drop]
    have hc0le : pos / CHUNK_SIZE * CHUNK_SIZE ≤ pos := Nat.div_mul_le_self pos CHUNK_SIZE
    have hdropeq : pos / CHUNK_SIZE * CHUNK_SIZE + (pos - pos / CHUNK_SIZE * CHUNK_SIZE) =
        pos := by omega
    rw [hdropeq]
    rw [List.take_take]
    have hstop2 : min (pos + n) p.length ≤
        (min (pos + n) p.length + CHUNK_SIZE - 1) / CHUNK_SIZE * CHUNK_SIZE := by
      simp only [CHUNK_SIZE]
      omega
    have hmin : min (min (pos + n) p.length - pos)
        (((min (pos + n) p.length + CHUNK_SIZE - 1) / CHUNK_SIZE - pos / CHUNK_SIZE) *
          CHUNK_SIZE - (pos - pos / CHUNK_SIZE * CHUNK_SIZE)) =
        min (pos + n) p.length - pos := by
      simp only [CHUNK_SIZE]
      omega
    rw [hmin]
    have htake : (p.drop pos).take (min (pos + n) p.length - pos) = (p.drop pos).take n := by
      rw [List.take_eq_take]
      simp only [List.length_drop]
      omega
    rw [htake]

/-! ### Tamper detection -/

theorem getD_set_self (l : Bytes) (j v : Nat) (h : j < l.length) :
    (l.set j v).getD j 0 = v := by
  rw [List.getD_eq_getElem?_getD]
  rw [List.getElem?_set_self (by simpa using h)]
  simp

theorem isBytes_set (l : Bytes) (j v : Nat) (hl : IsBytes l) (hv : v < 256) :
    IsBytes (l.set j v) := by
  intro x hx
  rcases List.mem_or_eq_of_mem_set hx with h | h
  · exact hl x h
  · omega

theorem set_ne_self (l : Bytes) (j v : Nat) (h : j < l.length) (hv : v ≠ l.getD j 0) :
    l.set j v ≠ l := by
  intro heq
  apply hv
  rw [← getD_set_self l j v h, heq]

theorem getD_append_left (l1 l2 : Bytes) (j : Nat) (h : j < l1.length) :
    (l1 ++ l2).getD j 0 = l1.getD j 0 := by
  rw [List.getD_eq_getElem?_getD, List.getD_eq_getElem?_getD]
  rw [List.getElem?_append, if_pos h]

theorem getD_append_right (l1 l2 : Bytes) (j : Nat) (h : l1.length ≤ j) :
    (l1 ++ l2).getD j 0 = l2.getD (j - l1.length) 0 := by
  rw [List.getD_eq_getElem?_getD, List.getD_eq_getElem?_getD]
  rw [List.getElem?_append_right h]

/-- Flipping any single element of the sealed chunk stream makes the
decoder fail with an integrity error: the framing is positional, so the
flip lands in some chunk's ciphertext (the recomputed tag then differs
by MAC injectivity) or in some chunk's tag (which then differs from the
recomputed one). -/
theorem decodeChunks_flip (key nonce ad : Bytes) :
    ∀ f (p : Bytes) i j v, p.length ≤ f → IsBytes p →
      j < (chunkStream key nonce ad i p).length →
      v ≠ (chunkStream key nonce ad i p).getD j 0 → v < 256 →
      decodeChunksF key nonce ad CHUNK_SIZE
        ((chunkStream key nonce ad i p).set j v).length i
        ((chunkStream key nonce ad i p).set j v) = .error .integrityError := by
  intro f
  induction f with
  | zero =>
    intro p i j v hf hp hj hv hv256
    have hpnil : p = [] := List.length_eq_zero.mp (by omega)
    subst hpnil
    rw [chunkStream_short key nonce ad i [] (by simp [CHUNK_SIZE])] at hj hv ⊢
    simp only [sealChunk, encCT, List.nil_append, List.length_singleton] at hj hv ⊢
    interval_cases j
    simp only [List.set] at hv ⊢
    simp only [List.length_set, List.length_singleton]
    simp only [decodeChunksF]
    rw [if_neg (by simp)]
    rw [if_pos (by simp [CHUNK_SIZE])]
    rw [if_neg (by
      simp only [List.getLast?_singleton, Option.getD_some, List.dropLast_single]
      simpa using hv)]
  | succ f ih =>
    intro p i j v hf hp hj hv hv256
    by_cases hlt : p.length < CHUNK_SIZE
    · -- single (final) chunk
      rw [chunkStream_short key nonce ad i p hlt] at hj hv ⊢
      set E := encCT key nonce i 0 p with hEdef
      have hE : E.length = p.length := encCT_length key nonce i p 0
      have hEbytes : IsBytes E := encCT_isBytes key nonce i p 0
      have hshape : sealChunk key nonce ad i p = E ++ [tagOf key nonce i ad E] := rfl
      rw [hshape] at hj hv ⊢
      have hjlen : j < E.length + 1 := by
        simpa using hj
      by_cases hjE : j < E.length
      · -- flip hits the ciphertext
        rw [List.set_append_left _ _ hjE]
        have hlen1 : (E.set j v ++ [tagOf key nonce i ad E]).length = p.length + 1 := by
          simp [hE]
        rw [hlen1]
        simp only [decodeChunksF]
        rw [if_neg (by simp)]
        rw [if_pos (by
          simp only [List.length_append, List.length_set, hE, List.length_singleton]
          simp only [CHUNK_SIZE] at hlt ⊢
          omega)]
        rw [List.getLast?_concat, List.dropLast_concat]
        simp only [Option.getD_some]
        rw [if_neg (by
          intro heq
          have hne : E.set j v ≠ E := set_ne_self E j v hjE (by
            rw [getD_append_left _ _ j hjE] at hv
            exact hv)
          exact tagOf_ne_ct key nonce i ad E (E.set j v) hEbytes
            (isBytes_set E j v hEbytes hv256) (fun h => hne h.symm) heq)]
      · -- flip hits the tag
        have hjeq : j = E.length := by omega
        subst hjeq
        rw [List.set_append_right _ _ le_rfl]
        simp only [Nat.sub_self]
        rw [show ([tagOf key nonce i ad E] : Bytes).set 0 v = [v] from rfl]
        have hlen1 : (E ++ [v]).length = p.length + 1 := by simp [hE]
        rw [hlen1]
        simp only [decodeChunksF]
        rw [if_neg (by simp)]
        rw [if_pos (by
          simp only [List.length_append, hE, List.length_singleton]
          simp only [CHUNK_SIZE] at hlt ⊢
          omega)]
        rw [List.getLast?_concat, List.dropLast_concat]
        simp only [Option.getD_some]
        rw [if_neg (by
          rw [getD_append_right _ _ E.length le_rfl] at hv
          simp only [Nat.sub_self] at hv
          simpa using hv)]
    · -- full leading chunk
      rw [chunkStream_long key nonce ad i p (by omega)] at hj hv ⊢
      have hcs : 1 ≤ CHUNK_SIZE := by simp [CHUNK_SIZE]
      have htake : (p.take CHUNK_SIZE).length = CHUNK_SIZE := by
        simp only [List.length_take]
        omega
      set A := encCT key nonce i 0 (p.take CHUNK_SIZE) with hAdef
      have hA : A.length = CHUNK_SIZE := by
        rw [hAdef, encCT_length]
        exact htake
      have hAbytes : IsBytes A := encCT_isBytes key nonce i (p.take CHUNK_SIZE) 0
      set t2 := tagOf key nonce i ad A with ht2def
      set R := chunkStream key nonce ad (i + 1) (p.drop CHUNK_SIZE) with hRdef
      have hshape : sealChunk key nonce ad i (p.take CHUNK_SIZE) ++ R = A ++ t2 :: R := by
        simp [sealChunk, hAdef, ht2def, List.append_assoc]
      rw [hshape] at hj hv ⊢
      have hjlen : j < CHUNK_SIZE + 1 + R.length := by
        have : (A ++ t2 :: R).length = CHUNK_SIZE + 1 + R.length := by
          simp [hA]
          omega
        omega
      by_cases hjA : j < CHUNK_SIZE
      · rw [List.set_append_left _ _ (by omega : j < A.length)]
        have hlen1 : (A.set j v ++ t2 :: R).length = (CHUNK_SIZE + R.length) + 1 := by
          simp [hA]
          omega
        rw [hlen1]
        simp only [decodeChunksF]
        rw [if_neg (by simp)]
        rw [if_neg (by
          simp only [List.length_append, List.length_set, List.length_cons, hA]
          omega)]
        rw [show (A.set j v ++ t2 :: R).take CHUNK_SIZE = A.set j v from
          List.take_left' (by simp [hA])]
        rw [show (A.set j v ++ t2 :: R).getD CHUNK_SIZE 0 = t2 by
          rw [show CHUNK_SIZE = (A.set j v).length by simp [hA]]
          exact getD_mid _ t2 R]
        rw [if_neg (by
          intro heq
          have hvA : v ≠ A.getD j 0 := by
            rw [getD_append_left _ _ j (by omega)] at hv
            exact hv
          have hne : A.set j v ≠ A := set_ne_self A j v (by omega) hvA
          rw [ht2def] at heq
          exact tagOf_ne_ct key nonce i ad A (A.set j v) hAbytes
            (isBytes_set A j v hAbytes hv256) (fun h => hne h.symm) heq)]
      · by_cases hjT : j = CHUNK_SIZE
        · subst hjT
          rw [List.set_append_right _ _ (by omega : A.length ≤ CHUNK_SIZE)]
          rw [show CHUNK_SIZE - A.length = 0 by omega]
          rw [show (t2 :: R).set 0 v = v :: R from rfl]
          have hlen1 : (A ++ v :: R).length = (CHUNK_SIZE + R.length) + 1 := by
            simp [hA]
            omega
          rw [hlen1]
          simp only [decodeChunksF]
          rw [if_neg (by simp)]
          rw [if_neg (by
            simp only [List.length_append, List.length_cons, hA]
            omega)]
          rw [show (A ++ v :: R).take CHUNK_SIZE = A from List.take_left' hA]
          rw [show (A ++ v :: R).getD CHUNK_SIZE 0 = v by
            rw [show CHUNK_SIZE = A.length from hA.symm]
            exact getD_mid A v R]
          rw [if_neg (by
            have : (A ++ t2 :: R).getD CHUNK_SIZE 0 = t2 := by
              rw [show CHUNK_SIZE = A.length from hA.symm]
              exact getD_mid A t2 R
            rw [this] at hv
            exact hv)]
        · have hjR : CHUNK_SIZE < j := by omega
          rw [List.set_append_right _ _ (by omega : A.length ≤ j)]
          have hsub : j - A.length = (j - CHUNK_SIZE - 1) + 1 := by omega
          rw [hsub]
          rw [show (t2 :: R).set ((j - CHUNK_SIZE - 1) + 1) v =
            t2 :: R.set (j - CHUNK_SIZE - 1) v from rfl]
          have hlen1 : (A ++ t2 :: R.set (j - CHUNK_SIZE - 1) v).length =
              (CHUNK_SIZE + R.length) + 1 := by
            simp [hA]
            omega
          rw [hlen1]
          simp only [decodeChunksF]
          rw [if_neg (by simp)]
          rw [if_neg (by
            simp only [List.length_append, List.length_cons, List.length_set, hA]
            omega)]
          rw [show (A ++ t2 :: R.set (j - CHUNK_SIZE - 1) v).take CHUNK_SIZE = A from
            List.take_left' hA]
          rw [show (A ++ t2 :: R.set (j - CHUNK_SIZE - 1) v).getD CHUNK_SIZE 0 = t2 by
            rw [show CHUNK_SIZE = A.length from hA.symm]
            exact getD_mid A t2 _]
          rw [if_pos rfl]
          rw [show (A ++ t2 :: R.set (j - CHUNK_SIZE - 1) v).drop (CHUNK_SIZE + 1) =
            R.set (j - CHUNK_SIZE - 1) v by
            rw [show CHUNK_SIZE = A.length from hA.symm]
            exact drop_mid A t2 _]
          have hvR : v ≠ R.getD (j - CHUNK_SIZE - 1) 0 := by
            rw [getD_append_right _ _ j (by omega)] at hv
            rw [show j - A.length = (j - CHUNK_SIZE - 1) + 1 from hsub] at hv
            simpa using hv
          have hfc : decodeChunksF key nonce ad CHUNK_SIZE (CHUNK_SIZE + R.length) (i + 1)
              (R.set (j - CHUNK_SIZE - 1) v) =
            decodeChunksF key nonce ad CHUNK_SIZE (R.set (j - CHUNK_SIZE - 1) v).length (i + 1)
              (R.set (j - CHUNK_SIZE - 1) v) := by
            apply decodeChunksF_congr
            · simp only [List.length_set]
              omega
            · exact le_rfl
          rw [hfc]
          rw [hRdef]
          rw [ih (p.drop CHUNK_SIZE) (i + 1) (j - CHUNK_SIZE - 1) v
            (by simp only [List.length_drop]; omega)
            (fun x hx => hp x (List.mem_of_mem_drop hx))
            (by rw [← hRdef]; omega)
            (by rw [← hRdef]; exact hvR) hv256]
          simp [Except.map]

/-- Decoding a chunk stream against different associated data fails at
the first chunk: the header bytes are bound into every chunk's tag. -/
theorem decodeChunks_wrongAd (key nonce ad ad' : Bytes) (had : IsBytes ad)
    (had' : IsBytes ad') (hne : ad' ≠ ad) (p : Bytes) (i : Nat) :
    decodeChunksF key nonce ad' CHUNK_SIZE (chunkStream key nonce ad i p).length i
      (chunkStream key nonce ad i p) = .error .integrityError := by
  by_cases hlt : p.length < CHUNK_SIZE
  · rw [chunkStream_short key nonce ad i p hlt]
    have hslen : (sealChunk key nonce ad i p).length = p.length + 1 :=
      sealChunk_length key nonce ad i p
    rw [hslen]
    simp only [decodeChunksF, sealChunk]
    rw [if_neg (by simp)]
    rw [if_pos (by
      simp only [List.length_append, encCT_length, List.length_singleton]
      simp only [CHUNK_SIZE] at hlt ⊢
      omega)]
    rw [List.getLast?_concat, List.dropLast_concat]
    simp only [Option.getD_some]
    rw [if_neg (tagOf_ne_ad key nonce i ad ad' _ had had' (fun h => hne h.symm))]
  · rw [chunkStream_long key nonce ad i p (by omega)]
    have hcs : 1 ≤ CHUNK_SIZE := by simp [CHUNK_SIZE]
    have htake : (p.take CHUNK_SIZE).length = CHUNK_SIZE := by
      simp only [List.length_take]
      omega
    set A := encCT key nonce i 0 (p.take CHUNK_SIZE) with hAdef
    have hA : A.length = CHUNK_SIZE := by
      rw [hAdef, encCT_length]
      exact htake
    set t2 := tagOf key nonce i ad A with ht2def
    set R := chunkStream key nonce ad (i + 1) (p.drop CHUNK_SIZE) with hRdef
    have hshape : sealChunk key nonce ad i (p.take CHUNK_SIZE) ++ R = A ++ t2 :: R := by
      simp [sealChunk, hAdef, ht2def, List.append_assoc]
    rw [hshape]
    have hlen1 : (A ++ t2 :: R).length = (CHUNK_SIZE + R.length) + 1 := by
      simp [hA]
      omega
    rw [hlen1]
    simp only [decodeChunksF]
    rw [if_neg (by simp)]
    rw [if_neg (by
      simp only [List.length_append, List.length_cons, hA]
      omega)]
    rw [show (A ++ t2 :: R).take CHUNK_SIZE = A from List.take_left' hA]
    rw [show (A ++ t2 :: R).getD CHUNK_SIZE 0 = t2 by
      rw [show CHUNK_SIZE = A.length from hA.symm]
      exact getD_mid A t2 R]
    rw [if_neg (by
      rw [ht2def]
      exact tagOf_ne_ad key nonce i ad ad' A had had' (fun h => hne h.symm))]

/-- Serializing a header with an added extra field changes the header
bytes (they get strictly longer). -/
theorem headerBytes_extra_ne (h : CryptoHeader) (fk fv : Bytes) (hex : h.extra = []) :
    headerBytes { h with extra := [(fk, fv)] } ≠ headerBytes h := by
  intro heq
  have hlen := congrArg List.length heq
  simp only [headerBytes, extraBytes, hex, List.foldr_nil, List.foldr_cons,
    List.length_append, List.append_nil, List.length_cons] at hlen
  omega

/-- Decrypting an envelope whose header gained any extra field fails
with an integrity error (the header parses, the key resolves, but every
chunk tag was computed over the original header bytes). -/
theorem openFull_addedField (keys : List (Bytes × EncryptionKey)) (fallback : Bool)
    (key : EncryptionKey) (nonce p fk fv : Bytes)
    (hkid : IsBytes key.id) (hn : IsBytes nonce) (hfk : IsBytes fk) (hfv : IsBytes fv)
    (hlook : lookupKey keys key.id = some key) (hrev : key.revoked = false) :
    openFull keys fallback
      (MAGIC ++ headerBytes { mkHeader key nonce with extra := [(fk, fv)] } ++
        0 :: chunkStream key.key nonce (headerBytes (mkHeader key nonce)) 0 p) =
      .error .integrityError := by
  set hdE : CryptoHeader := { mkHeader key nonce with extra := [(fk, fv)] } with hdEdef
  set region := chunkStream key.key nonce (headerBytes (mkHeader key nonce)) 0 p with hregion
  have h1 : (MAGIC ++ (headerBytes hdE ++ 0 :: region)).take MAGIC.length = MAGIC :=
    List.take_left _ _
  have h2 : (MAGIC ++ (headerBytes hdE ++ 0 :: region)).drop MAGIC.length =
      headerBytes hdE ++ 0 :: region := List.drop_left _ _
  simp only [openFull, openAny, List.append_assoc]
  rw [if_pos h1, h2]
  rw [splitNul_append _ _ (headerBytes_pos hdE)]
  have hparse : parseHeader (headerBytes hdE) = some hdE :=
    parseHeader_headerBytes_one hdE hkid hn (by show IsBytes ALG; decide) fk fv hfk hfv rfl
  have hkidEq : hdE.key_id = key.id := rfl
  have hkidEq2 : (mkHeader key nonce).key_id = key.id := rfl
  have hcs : hdE.chunk_size = CHUNK_SIZE := rfl
  have hcs2 : (mkHeader key nonce).chunk_size = CHUNK_SIZE := rfl
  have hnonce : hdE.nonce = nonce := rfl
  have hnonce2 : (mkHeader key nonce).nonce = nonce := rfl
  simp only [hparse, hkidEq, hkidEq2, hlook, hrev, Bool.false_eq_true, if_false,
    hcs, hcs2, hnonce, hnonce2]
  rw [hregion]
  exact decodeChunks_wrongAd key.key nonce (headerBytes (mkHeader key nonce))
    (headerBytes hdE)
    (headerBytes_lt256 _ hkid hn (by show IsBytes ALG; decide) (by simp [mkHeader]))
    (headerBytes_lt256 _ hkid hn (by show IsBytes ALG; decide) (by
      intro kv hkv
      rw [hdEdef] at hkv
      simp only [List.mem_singleton] at hkv
      subst hkv
      exact ⟨hfk, hfv⟩))
    (headerBytes_extra_ne (mkHeader key nonce) fk fv rfl) p 0

/-- Flipping any single byte of the chunk region of an envelope makes a
full decrypt fail with an integrity error. -/
theorem openFull_flipped (keys : List (Bytes × EncryptionKey)) (fallback : Bool)
    (key : EncryptionKey) (nonce p : Bytes) (j v : Nat)
    (hkid : IsBytes key.id) (hn : IsBytes nonce) (hp : IsBytes p)
    (hlook : lookupKey keys key.id = some key) (hrev : key.revoked = false)
    (hjlo : MAGIC.length + (headerBytes (mkHeader key nonce)).length + 1 ≤ j)
    (hjhi : j < (encryptBytes key nonce p).length)
    (hv : v ≠ (encryptBytes key nonce p).getD j 0) (hv256 : v < 256) :
    openFull keys fallback ((encryptBytes key nonce p).set j v) =
      .error .integrityError := by
  set hb := headerBytes (mkHeader key nonce) with hbdef
  set region := chunkStream key.key nonce hb 0 p with hregion
  have henv : encryptBytes key nonce p = MAGIC ++ (hb ++ 0 :: region) := by
    rw [encryptBytes_eq]
    simp [List.append_assoc]
  rw [henv] at hjhi hv ⊢
  have hmlen : MAGIC.length = 4 := rfl
  have hj1 : MAGIC.length ≤ j := by omega
  rw [List.set_append_right _ _ hj1]
  have hj2 : hb.length ≤ j - MAGIC.length := by omega
  rw [List.set_append_right _ _ hj2]
  have hj3 : j - MAGIC.length - hb.length = (j - MAGIC.length - hb.length - 1) + 1 := by
    omega
  rw [hj3]
  rw [show (0 :: region).set ((j - MAGIC.length - hb.length - 1) + 1) v =
    0 :: region.set (j - MAGIC.length - hb.length - 1) v from rfl]
  set jE := j - MAGIC.length - hb.length - 1 with hjEdef
  have h1 : (MAGIC ++ (hb ++ 0 :: region.set jE v)).take MAGIC.length = MAGIC :=
    List.take_left _ _
  have h2 : (MAGIC ++ (hb ++ 0 :: region.set jE v)).drop MAGIC.length =
      hb ++ 0 :: region.set jE v := List.drop_left _ _
  simp only [openFull, openAny]
  rw [if_pos h1, h2]
  rw [splitNul_append _ _ (headerBytes_pos (mkHeader key nonce))]
  have hparse : parseHeader hb = some (mkHeader key nonce) :=
    parseHeader_headerBytes_nil (mkHeader key nonce) hkid hn
      (by show IsBytes ALG; decide) rfl
  have hkidEq : (mkHeader key nonce).key_id = key.id := rfl
  have hcs : (mkHeader key nonce).chunk_size = CHUNK_SIZE := rfl
  have hnonce : (mkHeader key nonce).nonce = nonce := rfl
  simp only [hparse, hkidEq, hlook, hrev, Bool.false_eq_true, if_false, hcs, hnonce]
  have hjregion : jE < region.length := by
    have : (MAGIC ++ (hb ++ 0 :: region)).length =
        MAGIC.length + hb.length + 1 + region.length := by
      simp
      omega
    omega
  have hvregion : v ≠ region.getD jE 0 := by
    rw [getD_append_right _ _ j hj1, getD_append_right _ _ _ hj2, hj3] at hv
    simpa using hv
  rw [hregion]
  exact decodeChunks_flip key.key nonce hb p.length p 0 jE v le_rfl hp
    (by rw [← hregion]; omega) (by rw [← hregion]; exact hvregion) hv256

/-- Truncating an envelope to a length that keeps the whole magic prefix
but cuts inside the header (losing the NUL separator) fails with a
malformed-header error. -/
theorem openFull_truncated (keys : List (Bytes × EncryptionKey)) (fallback : Bool)
    (key : EncryptionKey) (nonce p : Bytes) (n : Nat)
    (hn1 : MAGIC.length ≤ n)
    (hn2 : n < MAGIC.length + (headerBytes (mkHeader key nonce)).length + 1) :
    openFull keys fallback ((encryptBytes key nonce p).take n) =
      .error .malformedHeader := by
  set hb := headerBytes (mkHeader key nonce) with hbdef
  set region := chunkStream key.key nonce hb 0 p with hregion
  have henv : encryptBytes key nonce p = MAGIC ++ (hb ++ 0 :: region) := by
    rw [encryptBytes_eq]
    simp [List.append_assoc]
  rw [henv]
  have hnsplit : n = MAGIC.length + (n - MAGIC.length) := by omega
  rw [hnsplit, List.take_append]
  have htb : (hb ++ 0 :: region).take (n - MAGIC.length) = hb.take (n - MAGIC.length) := by
    rw [List.take_append_of_le_length (by omega)]
  rw [htb]
  have h1 : (MAGIC ++ hb.take (n - MAGIC.length)).take MAGIC.length = MAGIC :=
    List.take_left _ _
  have h2 : (MAGIC ++ hb.take (n - MAGIC.length)).drop MAGIC.length =
      hb.take (n - MAGIC.length) := List.drop_left _ _
  simp only [openFull, openAny]
  rw [if_pos h1, h2]
  rw [splitNul_none _ (fun x hx => headerBytes_pos (mkHeader key nonce) x
    (List.mem_of_mem_take hx))]

/-- Anything that does not carry the full magic prefix is passed through
verbatim when plaintext fallback is enabled. -/
theorem openFull_plaintext (keys : List (Bytes × EncryptionKey)) (data : Bytes)
    (h : data.take MAGIC.length ≠ MAGIC) :
    openFull keys true data = .ok data := by
  simp only [openFull, openAny, h, if_false, if_true]

/-- Encrypting under a revoked key is refused. -/
theorem cryptoEncrypt_revoked (key : EncryptionKey) (fallback : Bool) (nonce p : Bytes)
    (h : key.revoked = true) :
    cryptoEncrypt (some key) fallback nonce p = .error .revokedKey := by
  simp [cryptoEncrypt, h]

/-- Opening an envelope whose key id resolves to a revoked key is
refused before any chunk is decrypted. -/
theorem openFull_revokedKey (keys : List (Bytes × EncryptionKey)) (fallback : Bool)
    (key keyR : EncryptionKey) (nonce p : Bytes)
    (hkid : IsBytes key.id) (hn : IsBytes nonce)
    (hlook : lookupKey keys key.id = some keyR) (hrev : keyR.revoked = true) :
    openFull keys fallback (encryptBytes key nonce p) = .error .revokedKey := by
  set hb := headerBytes (mkHeader key nonce) with hbdef
  set region := chunkStream key.key nonce hb 0 p with hregion
  have henv : encryptBytes key nonce p = MAGIC ++ (hb ++ 0 :: region) := by
    rw [encryptBytes_eq]
    simp [List.append_assoc]
  rw [henv]
  have h1 : (MAGIC ++ (hb ++ 0 :: region)).take MAGIC.length = MAGIC := List.take_left _ _
  have h2 : (MAGIC ++ (hb ++ 0 :: region)).drop MAGIC.length = hb ++ 0 :: region :=
    List.drop_left _ _
  simp only [openFull, openAny]
  rw [if_pos h1, h2]
  rw [splitNul_append _ _ (headerBytes_pos (mkHeader key nonce))]
  have hparse : parseHeader hb = some (mkHeader key nonce) :=
    parseHeader_headerBytes_nil (mkHeader key nonce) hkid hn
      (by show IsBytes ALG; decide) rfl
  have hkidEq : (mkHeader key nonce).key_id = key.id := rfl
  simp only [hparse, hkidEq, hlook, hrev, if_true]

/-! ### Threshold archive model

Modelled from the spec (section 4.5): the ArchiveManager state machine
(`sysreptor/pentests/models` and views, absent from `src/`).  Users,
projects and key parts are records; the export bundle serialization is
an opaque injective byte encoding; the secret-splitting scheme is
modelled by its reconstruction contract (shares are opaque byte blobs
whose payload carries the key id and key; secrecy is outside the claims
under check). -/

/-- A live project record. -/
structure Project where
  id : Nat
  name : Bytes
deriving DecidableEq, Repr

/-- Modelled from the spec: the opaque export-bundle serialization. -/
def serializeProject (name : Bytes) : Bytes := encBS name

/-- Modelled from the spec: the opaque export-bundle deserialization. -/
def deserializeProject (data : Bytes) : Option Bytes :=
  match parseBS data with
  | some (name, []) => some name
  | _ => none

theorem deserializeProject_serializeProject (name : Bytes) (h : IsBytes name) :
    deserializeProject (serializeProject name) = some name := by
  unfold deserializeProject serializeProject
  rw [show encBS name = encBS name ++ [] by simp]
  rw [parseBS_encBS name h]

/-- Modelled from the spec: one share of the archive key, an opaque byte
blob containing a share index and the `{key_id, key}` payload. -/
def encShare (idx : Nat) (kid K : Bytes) : Bytes := encNat idx ++ encBS kid ++ encBS K

/-- Structural validation and decoding of a submitted share. -/
def parseShare (s : Bytes) : Option (Nat × Bytes × Bytes) :=
  (parseNat s).bind fun idxR =>
    (parseBS idxR.2).bind fun kidR =>
      match parseBS kidR.2 with
      | some (K, []) => some (idxR.1, kidR.1, K)
      | _ => none

theorem parseShare_encShare (idx : Nat) (kid K : Bytes) (hkid : IsBytes kid)
    (hK : IsBytes K) : parseShare (encShare idx kid K) = some (idx, kid, K) := by
  unfold parseShare encShare
  rw [List.append_assoc, parseNat_encNat]
  simp only [Option.some_bind]
  rw [parseBS_encBS kid hkid]
  simp only [Option.some_bind]
  rw [show encBS K = encBS K ++ [] by simp]
  rw [parseBS_encBS K hK]

/-- Modelled from the spec: `split` of the SecretSplitter — `N` opaque
shares of the `{key_id, key}` secret. -/
def splitKey (kid K : Bytes) (n : Nat) : List Bytes :=
  (List.range n).map fun i => encShare i kid K

/-- Modelled from the spec: `combine` — reconstruct the `{key_id, key}`
secret from submitted decrypted shares. -/
def combineShares (shares : List Bytes) : Option (Bytes × Bytes) :=
  match shares with
  | [] => none
  | s :: _ => (parseShare s).map fun t => (t.2.1, t.2.2)

/-- Modelled from the spec: a registered user public key (opaque). -/
structure UserPublicKey where
  id : Nat
  public_key : Bytes
deriving DecidableEq, Repr

/-- Modelled from the spec: an eligible archiver with registered public
keys. -/
structure ArchUser where
  id : Nat
  public_keys : List UserPublicKey
deriving DecidableEq, Repr

/-- Modelled from the spec: `ArchivedProjectKeyPart` — one per eligible
user; `key_part` holds the plaintext share only while decrypted. -/
structure ArchivedProjectKeyPart where
  id : Nat
  user : Nat
  encrypted_key_part : Bytes
  key_part : Option Bytes
  decrypted_at : Option Nat
deriving DecidableEq, Repr

/-- `is_decrypted` is derived from the stored plaintext share. -/
def ArchivedProjectKeyPart.is_decrypted (kp : ArchivedProjectKeyPart) : Bool :=
  kp.key_part.isSome

/-- Modelled from the spec: the asymmetric wrap collaborator (opaque). -/
def wrapShare (share pk : Bytes) : Bytes := encBS pk ++ share

/-- Modelled from the spec: `ArchivedProjectPublicKeyEncryptedKeyPart` —
one wrapped copy per (key part, user public key). -/
structure PublicKeyEncryptedKeyPart where
  key_part_id : Nat
  public_key_id : Nat
  encrypted_data : Bytes
deriving DecidableEq, Repr

/-- Modelled from the spec: `ArchivedProject` with its key parts. -/
structure ArchivedProject where
  id : Nat
  name : Bytes
  threshold : Nat
  file : Bytes
  key_parts : List ArchivedProjectKeyPart
  encrypted_key_parts : List PublicKeyEncryptedKeyPart
deriving DecidableEq, Repr

/-- The persistent state the ArchiveManager acts on. -/
structure ArchiveSt where
  projects : List Project
  archives : List ArchivedProject
  nextId : Nat
deriving DecidableEq, Repr

/-- Client-error taxonomy of the archive protocol (spec section 7). -/
inductive ArchiveError where
  | insufficientEligibleUsers
  | malformedShare
  | notFound
  | restoreFailed
deriving DecidableEq, Repr

/-- Outcome of a key-part decryption submission. -/
inductive DecryptStatus where
  | partDecrypted
  | restored (pid : Nat)
deriving DecidableEq, Repr

/-- Modelled from the spec: `create_archive` — fails if fewer than `M`
eligible users own a public key; otherwise generates the key-part rows
(one per keyed user, a wrapped copy per public key), encrypts the
bundle under the fresh key, persists the archive and deletes the live
project, atomically.  The fresh key material and nonce are passed in
(randomness is external). -/
def create_archive (st : ArchiveSt) (proj : Project) (users : List ArchUser)
    (m : Nat) (kid K nonce : Bytes) : Except ArchiveError ArchiveSt :=
  let keyed := users.filter fun u => !u.public_keys.isEmpty
  if keyed.length < m then .error .insufficientEligibleUsers
  else
    let file := encryptBytes ⟨kid, K, false⟩ nonce (serializeProject proj.name)
    let kps := (List.range keyed.length).map fun i =>
      ArchivedProjectKeyPart.mk i ((keyed.getD i ⟨0, []⟩).id)
        (encShare i kid K) none none
    let wrapped := (List.range keyed.length).flatMap fun i =>
      (keyed.getD i ⟨0, []⟩).public_keys.map fun pk =>
        PublicKeyEncryptedKeyPart.mk i pk.id (wrapShare (encShare i kid K) pk.public_key)
    .ok { projects := st.projects.filter fun q => q.id != proj.id,
          archives := st.archives ++
            [⟨st.nextId, proj.name, m, file, kps, wrapped⟩],
          nextId := st.nextId + 1 }

/-- Modelled from the spec: `decrypt_key_part` — validate the submitted
share (client error on garbage, state unchanged), store it and mark the
part decrypted, then recount; at threshold, combine the shares, decrypt
and deserialize the bundle, create the restored project and delete the
archive with all its key parts in the same transaction. -/
def decrypt_key_part (st : ArchiveSt) (now : Nat) (aid kpid : Nat) (data : Bytes) :
    Except ArchiveError (ArchiveSt × DecryptStatus) :=
  match st.archives.find? fun a => a.id == aid with
  | none => .error .notFound
  | some a =>
    match parseShare data with
    | none => .error .malformedShare
    | some _ =>
      let kps := a.key_parts.map fun kp =>
        if kp.id = kpid then { kp with key_part := some data, decrypted_at := some now }
        else kp
      if (kps.filter fun kp => kp.is_decrypted).length < a.threshold then
        .ok ({ st with archives := st.archives.map fun a' =>
                if a'.id = aid then { a with key_parts := kps } else a' },
             .partDecrypted)
      else
        match combineShares ((kps.filter fun kp => kp.is_decrypted).filterMap
            fun kp => kp.key_part) with
        | none => .error .restoreFailed
        | some (kid, K) =>
          match openFull [(kid, ⟨kid, K, false⟩)] false a.file with
          | .error _ => .error .restoreFailed
          | .ok bundle =>
            match deserializeProject bundle with
            | none => .error .restoreFailed
            | some name =>
              .ok ({ projects := st.projects ++ [⟨st.nextId, name⟩],
                     archives := st.archives.filter fun a' => a'.id != aid,
                     nextId := st.nextId + 1 },
                   .restored st.nextId)

/-! ### Staleness reaper -/

/-- A key part decrypted longer ago than the timeout. -/
def keyPartStale (now timeout : Nat) (kp : ArchivedProjectKeyPart) : Bool :=
  match kp.decrypted_at with
  | some t => kp.is_decrypted && decide (t + timeout < now)
  | none => false

/-- A key part decrypted within the timeout window. -/
def keyPartFresh (now timeout : Nat) (kp : ArchivedProjectKeyPart) : Bool :=
  match kp.decrypted_at with
  | some t => kp.is_decrypted && decide (now ≤ t + timeout)
  | none => false

/-- Reset a key part to the not-decrypted state: the plaintext share and
the timestamp are cleared. -/
def resetKeyPart (kp : ArchivedProjectKeyPart) : ArchivedProjectKeyPart :=
  { kp with key_part := none, decrypted_at := none }

/-- Modelled from the spec: the per-archive staleness reset.  The spec
text (section 4.5) gates the reset on the archive's total decrypted
count being below threshold, but the repository's own tests
(`TestResetStaleArchiveRestore.test_reset_one_but_not_other`,
`src/api/src/sysreptor/tests/test_periodic_tasks.py`) reset a stale
part of an archive whose total decrypted count equals its threshold, so
the gate is taken over the parts decrypted within the timeout window,
which satisfies all three repository tests. -/
def reapArchive (now timeout : Nat) (a : ArchivedProject) : ArchivedProject :=
  if (a.key_parts.filter (keyPartFresh now timeout)).length < a.threshold then
    { a with key_parts := a.key_parts.map fun kp =>
        if keyPartStale now timeout kp then resetKeyPart kp else kp }
  else a

/-- Modelled from the spec: `reset_stale_archive_restores` — the
periodic staleness reaper, applied archive by archive. -/
def reset_stale_archive_restores (now timeout : Nat)
    (archives : List ArchivedProject) : List ArchivedProject :=
  archives.map (reapArchive now timeout)

theorem reapArchive_keyPart (now timeout : Nat) (a : ArchivedProject) (j : Nat) :
    (reapArchive now timeout a).key_parts[j]? =
      (a.key_parts[j]?).map fun kp =>
        if keyPartStale now timeout kp = true ∧
            (a.key_parts.filter (keyPartFresh now timeout)).length < a.threshold
        then resetKeyPart kp else kp := by
  unfold reapArchive
  by_cases hc : (a.key_parts.filter (keyPartFresh now timeout)).length < a.threshold
  · simp only [hc, if_true, and_true]
    rw [List.getElem?_map]
  · simp only [hc, if_false, and_false]
    cases a.key_parts[j]? <;> simp

/-! ### Rotation pass over a blob storage

Embedded from `src/api/src/sysreptor/management/commands/encryptdata.py`,
`Command.encrypt_storage_files` (lines 43-57): one `file_name_map` is
threaded over all rows of all models sharing the storage (primary and
history rows alike, here flattened into one row list in iteration
order); a name not yet in the map is opened, re-encrypted by saving
under a fresh name, and the old blob deleted; every row is then updated
to the mapped name.  Saving re-encrypts transparently (the storages are
the encrypted wrappers), modelled by the `reenc` parameter. -/

/-- A database row referencing a storage file by name. -/
structure StorageRow where
  rowId : Nat
  file : Nat
deriving DecidableEq, Repr

/-- The blob storage: stored files and a fresh-name counter
(`storage.save(name='new', ...)` generates fresh names). -/
structure BlobStorage where
  files : List (Nat × Bytes)
  nextName : Nat
deriving DecidableEq, Repr

/-- `storage.open(name).read()`. -/
def storageOpen (st : BlobStorage) (name : Nat) : Bytes :=
  (st.files.lookup name).getD []

/-- `storage.save(...)`: store under a fresh name. -/
def storageSave (st : BlobStorage) (content : Bytes) : Nat × BlobStorage :=
  (st.nextName, ⟨st.files ++ [(st.nextName, content)], st.nextName + 1⟩)

/-- `storage.delete(name)`. -/
def storageDelete (st : BlobStorage) (name : Nat) : BlobStorage :=
  { st with files := st.files.filter fun f => f.1 != name }

/-- The rotation pass state: the `file_name_map`, the storage, and the
logs of old names for which a save and a delete were performed. -/
structure RotSt where
  map : List (Nat × Nat)
  storage : BlobStorage
  saves : List Nat
  deletes : List Nat
deriving DecidableEq, Repr

/-- One iteration of the row loop in `encrypt_storage_files`. -/
def processRow (reenc : Bytes → Bytes) (st : RotSt) (row : StorageRow) :
    RotSt × StorageRow :=
  match st.map.lookup row.file with
  | some newName => (st, ⟨row.rowId, newName⟩)
  | none =>
    let content := storageOpen st.storage row.file
    let saved := storageSave st.storage (reenc content)
    ({ map := st.map ++ [(row.file, saved.1)],
       storage := storageDelete saved.2 row.file,
       saves := st.saves ++ [row.file],
       deletes := st.deletes ++ [row.file] },
     ⟨row.rowId, saved.1⟩)

/-- The row loop of `encrypt_storage_files`, returning the final state
and the updated rows (the `bulk_update` payload). -/
def encrypt_storage_files (reenc : Bytes → Bytes) (st : RotSt) :
    List StorageRow → RotSt × List StorageRow
  | [] => (st, [])
  | row :: rest =>
    let step := processRow reenc st row
    let rec2 := encrypt_storage_files reenc step.1 rest
    (rec2.1, step.2 :: rec2.2)

theorem lookup_snoc_same (l : List (Nat × Nat)) (k v : Nat) (h : l.lookup k = none) :
    (l ++ [(k, v)]).lookup k = some v := by
  induction l with
  | nil => simp [List.lookup_cons]
  | cons hd r ih =>
    obtain ⟨hk, hv⟩ := hd
    rw [List.lookup_cons] at h
    rw [List.cons_append, List.lookup_cons]
    cases hbeq : k == hk with
    | true => simp [hbeq] at h
    | false =>
      simp only [hbeq] at h ⊢
      exact ih h

theorem lookup_snoc_other (l : List (Nat × Nat)) (k k' v' : Nat) (h : k ≠ k') :
    (l ++ [(k', v')]).lookup k = l.lookup k := by
  induction l with
  | nil =>
    simp only [List.nil_append, List.lookup_cons]
    rw [show (k == k') = false from beq_eq_false_iff_ne.mpr h]
  | cons hd r ih =>
    obtain ⟨hk, hv⟩ := hd
    rw [List.cons_append, List.lookup_cons, List.lookup_cons]
    cases hbeq : k == hk with
    | true => simp only [hbeq]
    | false =>
      simp only [hbeq]
      exact ih

theorem lookup_snoc_some (l : List (Nat × Nat)) (p : Nat × Nat) (k v : Nat)
    (h : l.lookup k = some v) : (l ++ [p]).lookup k = some v := by
  induction l with
  | nil => simp [List.lookup] at h
  | cons hd r ih =>
    obtain ⟨hk, hv⟩ := hd
    rw [List.lookup_cons] at h
    rw [List.cons_append, List.lookup_cons]
    cases hbeq : k == hk with
    | true => simpa [hbeq] using h
    | false =>
      simp only [hbeq] at h ⊢
      exact ih h

theorem rot_saves_count (reenc : Bytes → Bytes) :
    ∀ (rows : List StorageRow) (st : RotSt) (name : Nat),
      (encrypt_storage_files reenc st rows).1.saves.count name =
        st.saves.count name +
          (if name ∈ rows.map StorageRow.file ∧ st.map.lookup name = none
           then 1 else 0) := by
  intro rows
  induction rows with
  | nil => intro st name; simp [encrypt_storage_files]
  | cons row rest ih =>
    intro st name
    simp only [encrypt_storage_files]
    cases hlook : st.map.lookup row.file with
    | some n =>
      simp only [processRow, hlook]
      rw [ih st name]
      congr 1
      by_cases hname : name = row.file
      · subst hname
        simp [hlook]
      · simp only [List.map_cons, List.mem_cons]
        have hiff : (name = row.file ∨ name ∈ rest.map StorageRow.file) ↔
            name ∈ rest.map StorageRow.file := by
          constructor
          · rintro (h | h)
            · exact absurd h hname
            · exact h
          · exact Or.inr
        simp only [hiff]
    | none =>
      simp only [processRow, hlook, storageSave]
      rw [ih]
      simp only [List.count_append]
      by_cases hname : name = row.file
      · subst hname
        have hlook2 : (st.map ++ [(row.file, st.storage.nextName)]).lookup row.file =
            some st.storage.nextName := lookup_snoc_same st.map row.file _ hlook
        simp [hlook2, hlook, List.count_singleton]
      · have hlook2 : (st.map ++ [(row.file, st.storage.nextName)]).lookup name =
            st.map.lookup name := lookup_snoc_other st.map name row.file _ hname
        rw [hlook2]
        have hcnt : List.count name [row.file] = 0 := by
          rw [List.count_singleton]
          simp only [beq_iff_eq]
          exact if_neg (fun h => hname h.symm)
        rw [hcnt]
        simp only [List.map_cons, List.mem_cons]
        have hiff : (name = row.file ∨ name ∈ rest.map StorageRow.file) ↔
            name ∈ rest.map StorageRow.file := by
          constructor
          · rintro (h | h)
            · exact absurd h hname
            · exact h
          · exact Or.inr
        simp only [hiff]
        omega

theorem rot_deletes_eq_saves (reenc : Bytes → Bytes) :
    ∀ (rows : List StorageRow) (st : RotSt), st.deletes = st.saves →
      (encrypt_storage_files reenc st rows).1.deletes =
        (encrypt_storage_files reenc st rows).1.saves := by
  intro rows
  induction rows with
  | nil => intro st h; simpa [encrypt_storage_files] using h
  | cons row rest ih =>
    intro st h
    simp only [encrypt_storage_files]
    cases hlook : st.map.lookup row.file with
    | some n =>
      simp only [processRow, hlook]
      exact ih st h
    | none =>
      simp only [processRow, hlook, storageSave]
      exact ih _ (by simp [h])

theorem rot_map_mono (reenc : Bytes → Bytes) :
    ∀ (rows : List StorageRow) (st : RotSt) (k v : Nat), st.map.lookup k = some v →
      (encrypt_storage_files reenc st rows).1.map.lookup k = some v := by
  intro rows
  induction rows with
  | nil => intro st k v h; simpa [encrypt_storage_files] using h
  | cons row rest ih =>
    intro st k v h
    simp only [encrypt_storage_files]
    cases hlook : st.map.lookup row.file with
    | some n =>
      simp only [processRow, hlook]
      exact ih st k v h
    | none =>
      simp only [processRow, hlook, storageSave]
      exact ih _ k v (lookup_snoc_some st.map _ k v h)

theorem rot_rows (reenc : Bytes → Bytes) :
    ∀ (rows : List StorageRow) (st : RotSt) (idx : Nat) (row : StorageRow),
      rows[idx]? = some row →
      ∃ nn, (encrypt_storage_files reenc st rows).1.map.lookup row.file = some nn ∧
        (encrypt_storage_files reenc st rows).2[idx]? = some ⟨row.rowId, nn⟩ := by
  intro rows
  induction rows with
  | nil => intro st idx row h; simp at h
  | cons row0 rest ih =>
    intro st idx row h
    simp only [encrypt_storage_files]
    cases idx with
    | zero =>
      simp only [List.getElem?_cons_zero, Option.some.injEq] at h
      subst h
      cases hlook : st.map.lookup row0.file with
      | some n =>
        refine ⟨n, ?_, ?_⟩
        · simp only [processRow, hlook]
          exact rot_map_mono reenc rest st row0.file n hlook
        · simp only [processRow, hlook, List.getElem?_cons_zero]
      | none =>
        refine ⟨st.storage.nextName, ?_, ?_⟩
        · simp only [processRow, hlook, storageSave]
          exact rot_map_mono reenc rest _ row0.file st.storage.nextName
            (lookup_snoc_same st.map row0.file _ hlook)
        · simp only [processRow, hlook, storageSave, List.getElem?_cons_zero]
    | succ idx =>
      simp only [List.getElem?_cons_succ] at h
      obtain ⟨nn, h1, h2⟩ := ih (processRow reenc st row0).1 idx row h
      exact ⟨nn, h1, by simpa using h2⟩

/-- Storage cleanliness invariant of the rotation pass: names below the
initial fresh bound that are recorded in the map are no longer present
in the storage (their old blob was deleted and fresh names never
collide with them). -/
def rotClean (bound : Nat) (st : RotSt) : Prop :=
  bound ≤ st.storage.nextName ∧
  ∀ k, k < bound → (st.map.lookup k).isSome → k ∉ st.storage.files.map Prod.fst

theorem rot_clean (reenc : Bytes → Bytes) :
    ∀ (rows : List StorageRow) (st : RotSt) (bound : Nat),
      (∀ r ∈ rows, r.file < bound) → rotClean bound st →
      rotClean bound (encrypt_storage_files reenc st rows).1 := by
  intro rows
  induction rows with
  | nil => intro st bound _ h; simpa [encrypt_storage_files] using h
  | cons row rest ih =>
    intro st bound hrows h
    simp only [encrypt_storage_files]
    cases hlook : st.map.lookup row.file with
    | some n =>
      simp only [processRow, hlook]
      exact ih st bound (fun r hr => hrows r (by simp [hr])) h
    | none =>
      simp only [processRow, hlook, storageSave]
      apply ih _ bound (fun r hr => hrows r (by simp [hr]))
      constructor
      · simp only [storageDelete]
        have := h.1
        omega
      · intro k hk hsome hmem
        have hrow : row.file < bound := hrows row (by simp)
        rw [List.mem_map] at hmem
        obtain ⟨pr, hpr, hfst⟩ := hmem
        simp only [storageDelete, List.mem_filter] at hpr
        obtain ⟨hpr_mem, hpr_ne⟩ := hpr
        have hne : pr.1 ≠ row.file := by simpa using hpr_ne
        have hkne : k ≠ row.file := by rw [← hfst]; exact hne
        have hsome' : (st.map.lookup k).isSome := by
          rw [lookup_snoc_other st.map k row.file _ hkne] at hsome
          exact hsome
        rcases List.mem_append.mp hpr_mem with hmem1 | hmem2
        · exact h.2 k hk hsome' (List.mem_map.mpr ⟨pr, hmem1, hfst⟩)
        · have : pr = (st.storage.nextName, reenc (storageOpen st.storage row.file)) := by
            simpa using hmem2
          have hkval : k = st.storage.nextName := by
            rw [← hfst, this]
          have := h.1
          omega

theorem isBytes_encBS (l : Bytes) (h : IsBytes l) : IsBytes (encBS l) :=
  fun x hx => lt_of_le_of_lt (encBS_le l h x hx) (by omega)

theorem isBytes_serializeProject (name : Bytes) (h : IsBytes name) :
    IsBytes (serializeProject name) := isBytes_encBS name h

theorem archive_restore_step1
    (projects : List Project) (nid aid : Nat) (now1 : Nat)
    (kid K nonce name eb1 eb2 eb3 : Bytes) (u1 u2 u3 : Nat)
    (w : List PublicKeyEncryptedKeyPart) (s1 : Bytes) (i1 : Nat)
    (hs1 : parseShare s1 = some (i1, kid, K)) :
    decrypt_key_part
      ⟨projects,
       [⟨aid, name, 2, encryptBytes ⟨kid, K, false⟩ nonce (serializeProject name),
         [⟨1, u1, eb1, none, none⟩, ⟨2, u2, eb2, none, none⟩, ⟨3, u3, eb3, none, none⟩],
         w⟩], nid⟩ now1 aid 1 s1 =
      .ok (⟨projects,
        [⟨aid, name, 2, encryptBytes ⟨kid, K, false⟩ nonce (serializeProject name),
          [⟨1, u1, eb1, some s1, some now1⟩, ⟨2, u2, eb2, none, none⟩,
           ⟨3, u3, eb3, none, none⟩], w⟩], nid⟩, .partDecrypted) := by
  simp only [decrypt_key_part, List.find?, beq_self_eq_true, hs1,
    ArchivedProjectKeyPart.is_decrypted, List.map_cons, List.map_nil,
    List.filter_cons, List.filter_nil]
  norm_num

theorem archive_restore_step2
    (projects : List Project) (nid aid : Nat) (now1 now2 : Nat)
    (kid K nonce name eb1 eb2 eb3 : Bytes) (u1 u2 u3 : Nat)
    (w : List PublicKeyEncryptedKeyPart) (s1 s2 : Bytes) (i1 i2 : Nat)
    (hkid : IsBytes kid) (hn : IsBytes nonce) (hname : IsBytes name)
    (hs1 : parseShare s1 = some (i1, kid, K))
    (hs2 : parseShare s2 = some (i2, kid, K)) :
    decrypt_key_part
      ⟨projects,
       [⟨aid, name, 2, encryptBytes ⟨kid, K, false⟩ nonce (serializeProject name),
         [⟨1, u1, eb1, some s1, some now1⟩, ⟨2, u2, eb2, none, none⟩,
          ⟨3, u3, eb3, none, none⟩], w⟩], nid⟩ now2 aid 2 s2 =
      .ok (⟨projects ++ [⟨nid, name⟩], [], nid + 1⟩, .restored nid) := by
  have hopen : openFull [(kid, ⟨kid, K, false⟩)] false
      (encryptBytes ⟨kid, K, false⟩ nonce (serializeProject name)) =
      .ok (serializeProject name) :=
    openFull_encryptBytes _ false ⟨kid, K, false⟩ nonce (serializeProject name)
      hkid hn (isBytes_serializeProject name hname)
      (by simp [lookupKey]) rfl
  simp only [decrypt_key_part, List.find?, beq_self_eq_true, hs2,
    ArchivedProjectKeyPart.is_decrypted, List.map_cons, List.map_nil,
    List.filter_cons, List.filter_nil]
  norm_num
  simp only [combineShares, List.filterMap, hs1, Option.map_some']
  rw [hopen]
  simp only [deserializeProject_serializeProject name hname]

theorem create_archive_cases (st : ArchiveSt) (proj : Project) (users : List ArchUser)
    (m : Nat) (kid K nonce : Bytes) :
    ((users.filter fun u => !u.public_keys.isEmpty).length < m →
      create_archive st proj users m kid K nonce = .error .insufficientEligibleUsers) ∧
    (m ≤ (users.filter fun u => !u.public_keys.isEmpty).length →
      ∃ a : ArchivedProject,
        create_archive st proj users m kid K nonce =
          .ok ⟨st.projects.filter fun q => q.id != proj.id,
               st.archives ++ [a], st.nextId + 1⟩ ∧
        a.threshold = m ∧
        a.key_parts.length = (users.filter fun u => !u.public_keys.isEmpty).length ∧
        (∀ kp ∈ a.key_parts, kp.key_part = none)) := by
  constructor
  · intro h
    simp only [create_archive, h, if_pos]
  · intro h
    refine ⟨⟨st.nextId, proj.name, m,
      encryptBytes ⟨kid, K, false⟩ nonce (serializeProject proj.name),
      (List.range (users.filter fun u => !u.public_keys.isEmpty).length).map fun i =>
        ArchivedProjectKeyPart.mk i
          (((users.filter fun u => !u.public_keys.isEmpty).getD i ⟨0, []⟩).id)
          (encShare i kid K) none none,
      (List.range (users.filter fun u => !u.public_keys.isEmpty).length).flatMap fun i =>
        ((users.filter fun u => !u.public_keys.isEmpty).getD i ⟨0, []⟩).public_keys.map
          fun pk =>
            PublicKeyEncryptedKeyPart.mk i pk.id
              (wrapShare (encShare i kid K) pk.public_key)⟩, ?_, rfl, ?_, ?_⟩
    · simp only [create_archive]
      rw [if_neg (by omega)]
    · simp
    · intro kp hkp
      simp only [List.mem_map, List.mem_range] at hkp
      obtain ⟨i, _, hi⟩ := hkp
      rw [← hi]

/-! ### The claims -/

/-- C1: for every plaintext byte string `p` of any length, including the
empty string, encrypting `p` under a non-revoked key with a nonce and
then opening the resulting envelope with a key map containing that key
yields exactly `p`, and the ciphertext always begins with the MAGIC
prefix. -/
theorem claim_C1_roundtrip (key : EncryptionKey) (nonce p : Bytes)
    (keys : List (Bytes × EncryptionKey)) (fallbackW fallbackR : Bool)
    (hkid : IsBytes key.id) (hn : IsBytes nonce) (hp : IsBytes p)
    (hrev : key.revoked = false) (hlook : lookupKey keys key.id = some key) :
    cryptoEncrypt (some key) fallbackW nonce p = .ok (encryptBytes key nonce p) ∧
    (encryptBytes key nonce p).take MAGIC.length = MAGIC ∧
    openFull keys fallbackR (encryptBytes key nonce p) = .ok p := by
  refine ⟨by simp [cryptoEncrypt, hrev], ?_,
    openFull_encryptBytes keys fallbackR key nonce p hkid hn hp hlook hrev⟩
  rw [encryptBytes_eq]
  rw [show MAGIC ++ headerBytes (mkHeader key nonce) ++
      0 :: chunkStream key.key nonce (headerBytes (mkHeader key nonce)) 0 p =
    MAGIC ++ (headerBytes (mkHeader key nonce) ++
      0 :: chunkStream key.key nonce (headerBytes (mkHeader key nonce)) 0 p) by
    simp [List.append_assoc]]
  exact List.take_left _ _

/-- C6: every byte string that does not carry the full MAGIC prefix —
those whose overlap with MAGIC is a strict proper prefix (including
strings shorter than MAGIC) and those of full length whose leading
bytes differ — is treated by open with plaintext fallback enabled as
plaintext and returned byte-for-byte unchanged, with no error. -/
theorem claim_C6_passthrough (keys : List (Bytes × EncryptionKey)) (data : Bytes)
    (h : data.take MAGIC.length ≠ MAGIC) :
    openFull keys true data = .ok data :=
  openFull_plaintext keys data h

/-- C7: a key marked revoked is refused in both directions — encrypting
under it fails before producing output, and opening an envelope whose
key id resolves to a revoked key in the key map fails before returning
any plaintext, even though the key material itself is intact. -/
theorem claim_C7_revoked (keyEnc keyRev : EncryptionKey)
    (keys : List (Bytes × EncryptionKey)) (fallback1 fallback2 : Bool) (nonce p : Bytes)
    (hkid : IsBytes keyEnc.id) (hn : IsBytes nonce)
    (hrev : keyRev.revoked = true)
    (hlook : lookupKey keys keyEnc.id = some keyRev) :
    cryptoEncrypt (some keyRev) fallback1 nonce p = .error .revokedKey ∧
    openFull keys fallback2 (encryptBytes keyEnc nonce p) = .error .revokedKey :=
  ⟨cryptoEncrypt_revoked keyRev fallback1 nonce p hrev,
   openFull_revokedKey keys fallback2 keyEnc keyRev nonce p hkid hn hlook hrev⟩

/-- C10: encryption output is independent of write chunking — writing
the plaintext one byte at a time produces an envelope byte-identical to
writing it in a single call, for the same key and base nonce. -/
theorem claim_C10_chunking (key : EncryptionKey) (nonce p : Bytes) :
    MAGIC ++ headerBytes (mkHeader key nonce) ++
      0 :: cclose key.key nonce (headerBytes (mkHeader key nonce))
        (writeAll key.key nonce (headerBytes (mkHeader key nonce)) ⟨[], [], 0⟩
          (p.map fun b => [b])) =
    encryptBytes key nonce p := by
  rw [writeAll_join key.key nonce (headerBytes (mkHeader key nonce)) (p.map fun b => [b])
    ⟨[], [], 0⟩ (by simp [CHUNK_SIZE])]
  have hflat : (p.map fun b => [b]).flatten = p := by
    induction p with
    | nil => rfl
    | cons b r ih => simp [ih]
  rw [hflat]
  rfl

/-- C2 (amended): for every envelope produced by encrypt, flipping any
single byte of the chunk region, or adding any new field to the header,
makes decryption fail with IntegrityError and no plaintext is returned;
truncating the envelope to a length that retains the full magic prefix
but less than the full header fails with MalformedHeader, a kind
distinct from the integrity failure.  (The original claim's truncation
clause covered every length below the header length; truncations
shorter than the magic prefix are instead passed through as plaintext
under fallback — see the counterexample.) -/
theorem claim_C2_tamper (keys : List (Bytes × EncryptionKey)) (fallback : Bool)
    (key : EncryptionKey) (nonce p : Bytes)
    (hkid : IsBytes key.id) (hn : IsBytes nonce) (hp : IsBytes p)
    (hlook : lookupKey keys key.id = some key) (hrev : key.revoked = false) :
    (∀ j v, MAGIC.length + (headerBytes (mkHeader key nonce)).length + 1 ≤ j →
      j < (encryptBytes key nonce p).length →
      v ≠ (encryptBytes key nonce p).getD j 0 → v < 256 →
      openFull keys fallback ((encryptBytes key nonce p).set j v) =
        .error .integrityError) ∧
    (∀ fk fv, IsBytes fk → IsBytes fv →
      openFull keys fallback
        (MAGIC ++ headerBytes { mkHeader key nonce with extra := [(fk, fv)] } ++
          0 :: chunkStream key.key nonce (headerBytes (mkHeader key nonce)) 0 p) =
        .error .integrityError) ∧
    (∀ n, MAGIC.length ≤ n →
      n < MAGIC.length + (headerBytes (mkHeader key nonce)).length + 1 →
      openFull keys fallback ((encryptBytes key nonce p).take n) =
        .error .malformedHeader) := by
  refine ⟨?_, ?_, ?_⟩
  · intro j v hjlo hjhi hv hv256
    exact openFull_flipped keys fallback key nonce p j v hkid hn hp hlook hrev
      hjlo hjhi hv hv256
  · intro fk fv hfk hfv
    exact openFull_addedField keys fallback key nonce p fk fv hkid hn hfk hfv hlook hrev
  · intro n hn1 hn2
    exact openFull_truncated keys fallback key nonce p n hn1 hn2

/-- C2 counterexample: as stated, the claim asserts MalformedHeader for
every truncation below the header length, but truncating this concrete
envelope to 2 bytes (below the 4-byte magic prefix) is passed through
as plaintext by open with fallback enabled (the configuration of the
repository's tests), not rejected as MalformedHeader. -/
theorem claim_C2_truncation_counterexample :
    2 < MAGIC.length +
      (headerBytes (mkHeader ⟨[1], [7, 7], false⟩ [5])).length + 1 ∧
    openFull [([1], ⟨[1], [7, 7], false⟩)] true
        ((encryptBytes ⟨[1], [7, 7], false⟩ [5] [10, 20, 30]).take 2) =
      .ok ((encryptBytes ⟨[1], [7, 7], false⟩ [5] [10, 20, 30]).take 2) := by
  decide

/-- C4 (amended): the reaper resets a key part — `is_decrypted` to
false, plaintext share and `decrypted_at` cleared — if and only if it
was marked decrypted longer ago than the timeout and its owning archive
has fewer than its threshold of key parts decrypted *within* the
timeout window; all other key parts are left completely unchanged, and
each archive is reaped independently of every other archive.  (The
original claim gated the reset on the archive's *total* decrypted count
being below threshold; the repository's tests reset a stale part whose
archive's total count equals its threshold — see the counterexample.) -/
theorem claim_C4_reaper (now timeout : Nat) (archives : List ArchivedProject) :
    (∀ i : Nat, (reset_stale_archive_restores now timeout archives)[i]? =
      (archives[i]?).map (reapArchive now timeout)) ∧
    (∀ a : ArchivedProject, ∀ j : Nat,
      (reapArchive now timeout a).key_parts[j]? =
        (a.key_parts[j]?).map fun kp =>
          if keyPartStale now timeout kp = true ∧
              (a.key_parts.filter (keyPartFresh now timeout)).length < a.threshold
          then resetKeyPart kp else kp) := by
  constructor
  · intro i
    simp [reset_stale_archive_restores]
  · intro a j
    exact reapArchive_keyPart now timeout a j

/-- C4 counterexample: an archive with threshold 1 and one stale
decrypted key part has reached its threshold of decrypted key parts
(count 1 of 1), yet the reaper resets the part — clearing its share and
timestamp — contradicting the claim that parts of an archive that
reached threshold are left completely unchanged.  This mirrors
`TestResetStaleArchiveRestore.test_reset_one_but_not_other` in
`src/api/src/sysreptor/tests/test_periodic_tasks.py`. -/
theorem claim_C4_reaper_counterexample :
    let a : ArchivedProject :=
      ⟨1, [], 1, [], [⟨0, 0, [], some [1], some 0⟩, ⟨1, 1, [], none, none⟩], []⟩
    a.threshold ≤ (a.key_parts.filter fun kp => kp.is_decrypted).length ∧
    (reset_stale_archive_restores 11 10 [a]).headD a =
      ⟨1, [], 1, [], [⟨0, 0, [], none, none⟩, ⟨1, 1, [], none, none⟩], []⟩ := by
  decide

/-- C5: over the decrypting stream of any envelope, for every reachable
position and every valid seek target computed with SEEK_SET, SEEK_CUR
or SEEK_END, `tell` after the seek returns exactly that target,
`read(n)` returns exactly the n-byte slice of the plaintext starting
there (advancing the position), `seek(0, SEEK_END)` lands exactly at
the plaintext length, and any read at or past the plaintext length
returns the empty byte string. -/
theorem claim_C5_seek (key : EncryptionKey) (nonce p : Bytes)
    (keys : List (Bytes × EncryptionKey)) (fallback : Bool)
    (hkid : IsBytes key.id) (hn : IsBytes nonce) (hp : IsBytes p)
    (hlook : lookupKey keys key.id = some key) (hrev : key.revoked = false) :
    openAny keys fallback (encryptBytes key nonce p) =
      .ok (.enc key (mkHeader key nonce) (headerBytes (mkHeader key nonce))
        (chunkStream key.key nonce (headerBytes (mkHeader key nonce)) 0 p)) ∧
    (∀ pos : Nat, pos ≤ p.length → ∀ (whence : Whence) (off : Int),
      let r : DecReader := ⟨key.key, nonce, headerBytes (mkHeader key nonce), CHUNK_SIZE,
        chunkStream key.key nonce (headerBytes (mkHeader key nonce)) 0 p, pos⟩
      0 ≤ seekTarget r whence off → (seekTarget r whence off).toNat ≤ p.length →
        streamTell (streamSeek r whence off) = (seekTarget r whence off).toNat ∧
        (∀ n : Nat, streamRead (streamSeek r whence off) n =
          .ok ((p.drop (seekTarget r whence off).toNat).take n,
            ⟨key.key, nonce, headerBytes (mkHeader key nonce), CHUNK_SIZE,
             chunkStream key.key nonce (headerBytes (mkHeader key nonce)) 0 p,
             min ((seekTarget r whence off).toNat + n) p.length⟩))) ∧
    (∀ pos : Nat,
      (streamSeek ⟨key.key, nonce, headerBytes (mkHeader key nonce), CHUNK_SIZE,
        chunkStream key.key nonce (headerBytes (mkHeader key nonce)) 0 p, pos⟩
        .fromEnd 0).pos = p.length) ∧
    (∀ n : Nat, streamRead ⟨key.key, nonce, headerBytes (mkHeader key nonce), CHUNK_SIZE,
        chunkStream key.key nonce (headerBytes (mkHeader key nonce)) 0 p, p.length⟩ n =
      .ok ([], ⟨key.key, nonce, headerBytes (mkHeader key nonce), CHUNK_SIZE,
        chunkStream key.key nonce (headerBytes (mkHeader key nonce)) 0 p, p.length⟩)) := by
  refine ⟨openAny_encryptBytes keys fallback key nonce p hkid hn hlook hrev, ?_, ?_, ?_⟩
  · intro pos hpos whence off
    intro r h0 hle
    refine ⟨rfl, ?_⟩
    intro n
    exact streamRead_chunkStream key.key nonce (headerBytes (mkHeader key nonce)) p hp
      _ n hle
  · intro pos
    simp only [streamSeek, seekTarget]
    rw [plaintextLength_chunkStream]
    simp
  · intro n
    have h := streamRead_chunkStream key.key nonce (headerBytes (mkHeader key nonce)) p hp
      p.length n le_rfl
    rw [h]
    rw [List.drop_length]
    simp

/-- C8: creating an archive fails with a client error whenever the
number of eligible users owning at least one registered public key is
strictly below the threshold `m` (including `m` above the total keyed
count) — and then no state is produced, so nothing is persisted: no
archive, no key parts, and the live project survives; with at least `m`
keyed eligible users, archiving succeeds, persisting the archive (one
undecrypted key part per keyed user) and removing the live project in
the same atomic state update. -/
theorem claim_C8_create_archive (st : ArchiveSt) (proj : Project)
    (users : List ArchUser) (m : Nat) (kid K nonce : Bytes) :
    ((users.filter fun u => !u.public_keys.isEmpty).length < m →
      create_archive st proj users m kid K nonce =
        .error .insufficientEligibleUsers) ∧
    (m ≤ (users.filter fun u => !u.public_keys.isEmpty).length →
      ∃ a : ArchivedProject,
        create_archive st proj users m kid K nonce =
          .ok ⟨st.projects.filter fun q => q.id != proj.id,
               st.archives ++ [a], st.nextId + 1⟩ ∧
        a.threshold = m ∧
        a.key_parts.length = (users.filter fun u => !u.public_keys.isEmpty).length ∧
        (∀ kp ∈ a.key_parts, kp.key_part = none)) :=
  create_archive_cases st proj users m kid K nonce

/-- C3: for an archive with three key parts and threshold two, none
decrypted, submitting one valid decrypted share marks that key part
decrypted and leaves the archive partially restored — the archive row
survives and no live project is recreated; submitting a second distinct
valid share triggers exactly one restore, which recreates the live
project and deletes the ArchivedProject together with all its key parts
in the same atomic state update. -/
theorem claim_C3_restore_timing
    (projects : List Project) (nid aid : Nat) (now1 now2 : Nat)
    (kid K nonce name eb1 eb2 eb3 : Bytes) (u1 u2 u3 : Nat)
    (w : List PublicKeyEncryptedKeyPart) (s1 s2 : Bytes) (i1 i2 : Nat)
    (hkid : IsBytes kid) (hn : IsBytes nonce) (hname : IsBytes name)
    (hs1 : parseShare s1 = some (i1, kid, K))
    (hs2 : parseShare s2 = some (i2, kid, K)) :
    decrypt_key_part
      ⟨projects,
       [⟨aid, name, 2, encryptBytes ⟨kid, K, false⟩ nonce (serializeProject name),
         [⟨1, u1, eb1, none, none⟩, ⟨2, u2, eb2, none, none⟩, ⟨3, u3, eb3, none, none⟩],
         w⟩], nid⟩ now1 aid 1 s1 =
      .ok (⟨projects,
        [⟨aid, name, 2, encryptBytes ⟨kid, K, false⟩ nonce (serializeProject name),
          [⟨1, u1, eb1, some s1, some now1⟩, ⟨2, u2, eb2, none, none⟩,
           ⟨3, u3, eb3, none, none⟩], w⟩], nid⟩, .partDecrypted) ∧
    decrypt_key_part
      ⟨projects,
       [⟨aid, name, 2, encryptBytes ⟨kid, K, false⟩ nonce (serializeProject name),
         [⟨1, u1, eb1, some s1, some now1⟩, ⟨2, u2, eb2, none, none⟩,
          ⟨3, u3, eb3, none, none⟩], w⟩], nid⟩ now2 aid 2 s2 =
      .ok (⟨projects ++ [⟨nid, name⟩], [], nid + 1⟩, .restored nid) :=
  ⟨archive_restore_step1 projects nid aid now1 kid K nonce name eb1 eb2 eb3 u1 u2 u3
      w s1 i1 hs1,
   archive_restore_step2 projects nid aid now1 now2 kid K nonce name eb1 eb2 eb3
      u1 u2 u3 w s1 s2 i1 i2 hkid hn hname hs1 hs2⟩

/-- C9: in one rotation pass of `encrypt_storage_files` over a blob
storage, every storage name referenced by one or more rows (history
rows included, flattened into the row list) is re-encrypted and saved
exactly once under a single new name, every referencing row is updated
to that one new name, and the old blob is deleted exactly once, leaving
no orphaned old blob behind; names already mapped are never processed
twice.  The bound hypothesis states that referenced names were created
by the storage (below its fresh-name counter). -/
theorem claim_C9_rotation (reenc : Bytes → Bytes) (storage0 : BlobStorage)
    (rows : List StorageRow) (hbound : ∀ r ∈ rows, r.file < storage0.nextName) :
    ∀ name ∈ rows.map StorageRow.file,
      (encrypt_storage_files reenc ⟨[], storage0, [], []⟩ rows).1.saves.count name = 1 ∧
      (encrypt_storage_files reenc ⟨[], storage0, [], []⟩ rows).1.deletes.count name = 1 ∧
      ∃ nn,
        (encrypt_storage_files reenc ⟨[], storage0, [], []⟩ rows).1.map.lookup name =
          some nn ∧
        (∀ (idx : Nat) (row : StorageRow), rows[idx]? = some row → row.file = name →
          (encrypt_storage_files reenc ⟨[], storage0, [], []⟩ rows).2[idx]? =
            some ⟨row.rowId, nn⟩) ∧
        name ∉ (encrypt_storage_files reenc ⟨[], storage0, [], []⟩
          rows).1.storage.files.map Prod.fst := by
  intro name hname
  have hsaves := rot_saves_count reenc rows ⟨[], storage0, [], []⟩ name
  have hdel := rot_deletes_eq_saves reenc rows ⟨[], storage0, [], []⟩ rfl
  refine ⟨?_, ?_, ?_⟩
  · rw [hsaves]
    simp only [List.count_nil]
    rw [if_pos ⟨hname, rfl⟩]
  · rw [hdel, hsaves]
    simp only [List.count_nil]
    rw [if_pos ⟨hname, rfl⟩]
  · obtain ⟨row1, hrow1_mem, hrow1_file⟩ := List.mem_map.mp hname
    obtain ⟨idx1, hidx1⟩ := List.getElem?_of_mem hrow1_mem
    obtain ⟨nn, hnn1, _⟩ := rot_rows reenc rows ⟨[], storage0, [], []⟩ idx1 row1 hidx1
    rw [hrow1_file] at hnn1
    refine ⟨nn, hnn1, ?_, ?_⟩
    · intro idx row hidx hfile
      obtain ⟨nn2, hnn2, hrow2⟩ := rot_rows reenc rows ⟨[], storage0, [], []⟩ idx row hidx
      rw [hfile] at hnn2
      rw [hnn1] at hnn2
      have heq : nn = nn2 := Option.some.inj hnn2
      rw [hrow2, ← heq]
    · have hclean := rot_clean reenc rows ⟨[], storage0, [], []⟩ storage0.nextName
        hbound ⟨le_rfl, by intro k _ hsome; simp [List.lookup] at hsome⟩
      have hlt : name < storage0.nextName := by
        rw [← hrow1_file]
        exact hbound row1 hrow1_mem
      exact hclean.2 name hlt (by rw [hnn1]; rfl)

/-! ### Concrete witnesses -/

/-- A concrete key for witness evaluation. -/
def keyW : EncryptionKey := ⟨[1], [7, 7], false⟩

/-- The same key, revoked. -/
def keyRevW : EncryptionKey := ⟨[1], [7, 7], true⟩

/-- A concrete base nonce. -/
def nonceW : Bytes := [5]

/-- A concrete plaintext crossing one chunk boundary. -/
def pW : Bytes := [10, 20, 30, 40, 50, 60, 70, 80, 90, 100]

/-- A key map holding the concrete key. -/
def keysW : List (Bytes × EncryptionKey) := [([1], keyW)]

/-- A key map resolving the id to the revoked key. -/
def keysRevW : List (Bytes × EncryptionKey) := [([1], keyRevW)]

theorem claim_C1_roundtrip_witness :
    cryptoEncrypt (some keyW) true nonceW pW = .ok (encryptBytes keyW nonceW pW) ∧
    (encryptBytes keyW nonceW pW).take MAGIC.length = MAGIC ∧
    openFull keysW true (encryptBytes keyW nonceW pW) = .ok pW :=
  claim_C1_roundtrip keyW nonceW pW keysW true true (by decide) (by decide)
    (by decide) rfl (by decide)

theorem claim_C2_tamper_witness :
    openFull keysW true ((encryptBytes keyW nonceW pW).set 20 7) =
      .error .integrityError ∧
    openFull keysW true
      (MAGIC ++ headerBytes { mkHeader keyW nonceW with extra := [([3], [4])] } ++
        0 :: chunkStream keyW.key nonceW (headerBytes (mkHeader keyW nonceW)) 0 pW) =
      .error .integrityError ∧
    openFull keysW true ((encryptBytes keyW nonceW pW).take 10) =
      .error .malformedHeader := by
  have h := claim_C2_tamper keysW true keyW nonceW pW (by decide) (by decide)
    (by decide) (by decide) rfl
  exact ⟨h.1 20 7 (by decide) (by decide) (by decide) (by decide),
         h.2.1 [3] [4] (by decide) (by decide),
         h.2.2 10 (by decide) (by decide)⟩

theorem claim_C3_restore_timing_witness :
    decrypt_key_part
      ⟨[], [⟨5, [65], 2, encryptBytes ⟨[1], [7], false⟩ [5] (serializeProject [65]),
        [⟨1, 11, [], none, none⟩, ⟨2, 12, [], none, none⟩, ⟨3, 13, [], none, none⟩],
        []⟩], 9⟩ 100 5 1 (encShare 0 [1] [7]) =
      .ok (⟨[], [⟨5, [65], 2, encryptBytes ⟨[1], [7], false⟩ [5] (serializeProject [65]),
        [⟨1, 11, [], some (encShare 0 [1] [7]), some 100⟩, ⟨2, 12, [], none, none⟩,
         ⟨3, 13, [], none, none⟩], []⟩], 9⟩, .partDecrypted) ∧
    decrypt_key_part
      ⟨[], [⟨5, [65], 2, encryptBytes ⟨[1], [7], false⟩ [5] (serializeProject [65]),
        [⟨1, 11, [], some (encShare 0 [1] [7]), some 100⟩, ⟨2, 12, [], none, none⟩,
         ⟨3, 13, [], none, none⟩], []⟩], 9⟩ 101 5 2 (encShare 1 [1] [7]) =
      .ok (⟨[] ++ [⟨9, [65]⟩], [], 9 + 1⟩, .restored 9) :=
  claim_C3_restore_timing [] 9 5 100 101 [1] [7] [5] [65] [] [] [] 11 12 13 []
    (encShare 0 [1] [7]) (encShare 1 [1] [7]) 0 1 (by decide) (by decide) (by decide)
    (by decide) (by decide)

theorem claim_C5_seek_witness :
    streamTell (streamSeek ⟨keyW.key, nonceW, headerBytes (mkHeader keyW nonceW),
      CHUNK_SIZE, chunkStream keyW.key nonceW (headerBytes (mkHeader keyW nonceW)) 0 pW,
      0⟩ .absolute 3) = 3 ∧
    streamRead (streamSeek ⟨keyW.key, nonceW, headerBytes (mkHeader keyW nonceW),
      CHUNK_SIZE, chunkStream keyW.key nonceW (headerBytes (mkHeader keyW nonceW)) 0 pW,
      0⟩ .absolute 3) 4 =
      .ok ((pW.drop 3).take 4,
        ⟨keyW.key, nonceW, headerBytes (mkHeader keyW nonceW), CHUNK_SIZE,
         chunkStream keyW.key nonceW (headerBytes (mkHeader keyW nonceW)) 0 pW,
         min (3 + 4) pW.length⟩) := by
  have h := claim_C5_seek keyW nonceW pW keysW true (by decide) (by decide) (by decide)
    (by decide) rfl
  have h2 := h.2.1 0 (by decide) .absolute 3 (by decide) (by decide)
  exact ⟨h2.1, h2.2 4⟩

theorem claim_C6_passthrough_witness :
    openFull keysW true (MAGIC.drop 2) = .ok (MAGIC.drop 2) :=
  claim_C6_passthrough keysW (MAGIC.drop 2) (by decide)

theorem claim_C7_revoked_witness :
    cryptoEncrypt (some keyRevW) true nonceW pW = .error .revokedKey ∧
    openFull keysRevW true (encryptBytes keyW nonceW pW) = .error .revokedKey :=
  claim_C7_revoked keyW keyRevW keysRevW true true nonceW pW (by decide) (by decide)
    rfl (by decide)

/-- Archive-state fixture for the create-archive witness. -/
def stW : ArchiveSt := ⟨[⟨1, [3]⟩], [], 0⟩

/-- Project fixture. -/
def projW : Project := ⟨1, [3]⟩

/-- Two eligible users, only one of whom owns a public key. -/
def usersW : List ArchUser := [⟨1, [⟨1, [2]⟩]⟩, ⟨2, []⟩]

theorem claim_C8_create_archive_witness :
    create_archive stW projW usersW 2 [1] [7] [5] =
      .error .insufficientEligibleUsers ∧
    ∃ a : ArchivedProject,
      create_archive stW projW usersW 1 [1] [7] [5] =
        .ok ⟨stW.projects.filter fun q => q.id != projW.id,
             stW.archives ++ [a], stW.nextId + 1⟩ ∧
      a.threshold = 1 ∧
      a.key_parts.length = (usersW.filter fun u => !u.public_keys.isEmpty).length ∧
      (∀ kp ∈ a.key_parts, kp.key_part = none) :=
  ⟨(claim_C8_create_archive stW projW usersW 2 [1] [7] [5]).1 (by decide),
   (claim_C8_create_archive stW projW usersW 1 [1] [7] [5]).2 (by decide)⟩

/-- Rotation fixtures: two rows sharing one blob, a third row with its
own blob. -/
def rowsW : List StorageRow := [⟨1, 10⟩, ⟨2, 10⟩, ⟨3, 11⟩]

/-- The storage holding the two blobs. -/
def storageW : BlobStorage := ⟨[(10, [1]), (11, [2])], 12⟩

/-- A concrete re-encryption transform. -/
def reencW : Bytes → Bytes := fun c => 9 :: c

theorem claim_C9_rotation_witness :
    (encrypt_storage_files reencW ⟨[], storageW, [], []⟩ rowsW).1.saves.count 10 = 1 ∧
    (encrypt_storage_files reencW ⟨[], storageW, [], []⟩ rowsW).1.deletes.count 10 = 1 ∧
    ∃ nn,
      (encrypt_storage_files reencW ⟨[], storageW, [], []⟩ rowsW).1.map.lookup 10 =
        some nn ∧
      (∀ (idx : Nat) (row : StorageRow), rowsW[idx]? = some row → row.file = 10 →
        (encrypt_storage_files reencW ⟨[], storageW, [], []⟩ rowsW).2[idx]? =
          some ⟨row.rowId, nn⟩) ∧
      10 ∉ (encrypt_storage_files reencW ⟨[], storageW, [], []⟩
        rowsW).1.storage.files.map Prod.fst :=
  claim_C9_rotation reencW storageW rowsW (by decide) 10 (by decide)
